import Mathlib

/-!
# RBDyn `Jacobian.cpp`: embedding and verified properties

The development embeds `rbd::Jacobian` (constructor, `subMultiBody`, `jacobian`,
`sJacobian`, `sSubMultiBody`) as executable Lean functions.

Conventions of the embedding.

* Values of C++ type `int` are mathematical integers (`Int`).  Signed arithmetic
  on the `int` accumulators `dof` and `curJ` is exact: signed overflow has no
  defined meaning in C++ and is given none here.  Unsigned arithmetic on
  `std::size_t` and the narrowing conversions to `int` are modelled modulo
  `2^64` and `2^32`.
* Every operation whose C++ behaviour is undefined (a vector index outside the
  vector, dereferencing `end()`, an Eigen block outside its matrix) yields an
  `Error`, as does every thrown exception.
* The types and operations of SpaceVecAlg, Eigen, `Body` and `Joint` are not
  part of `Jacobian.cpp`; they are the fields of a parameter `Deps`.
-/

namespace rbd

/-- Collaborators of `Jacobian.cpp` that are declared elsewhere: the value types
`Body`, `Joint`, `sva::PTransform`, `Eigen::Vector3d`, one column of a six-row
`Eigen::MatrixXd`, and the operations the file calls on them. -/
structure Deps where
  /-- The type `rbd::Body`. -/
  Body : Type
  /-- The type `rbd::Joint`. -/
  Joint : Type
  /-- The type `sva::PTransform`. -/
  PTransform : Type
  /-- The type `Eigen::Vector3d`. -/
  Vector3d : Type
  /-- One column of a matrix with six rows. -/
  Vector6d : Type
  /-- The accessor `Joint::dof()`. -/
  dof : Joint → Int
  /-- The accessor `Joint::motionSubspace()`, as the list of its columns. -/
  motionSubspace : Joint → List Vector6d
  /-- The product `X1 * X2` of two transforms. -/
  mul : PTransform → PTransform → PTransform
  /-- The inverse `X.inv()`. -/
  inv : PTransform → PTransform
  /-- The transform `sva::PTransform(X.rotation())`: rotation kept, translation dropped. -/
  rotationOnly : PTransform → PTransform
  /-- The product `X.matrix() * v` of the 6x6 matrix of `X` with one column. -/
  matrixMul : PTransform → Vector6d → Vector6d

/-- Ways in which a call fails. -/
inductive Error where
  /-- The exception `std::out_of_range` of the identifier lookup. -/
  | outOfRange
  /-- The exception `std::domain_error` of `checkMatchBodyPos` / `checkMatchJointConf`. -/
  | configMismatch
  /-- The exception `std::domain_error("jointsPath mismatch MultiBody")`. -/
  | pathMismatch
  /-- Undefined behaviour: a read outside a vector, or through `end()`. -/
  | invalidRead
  /-- Undefined behaviour: an Eigen resize or block that violates its size assertions. -/
  | invalidBlock
  /-- The loop was cut off by the step bound of the embedding. -/
  | outOfFuel
  deriving DecidableEq, Repr

/-- The errors that are C++ exceptions (as opposed to undefined behaviour or the step bound). -/
def Error.thrown : Error → Bool
  | .outOfRange => true
  | .configMismatch => true
  | .pathMismatch => true
  | .invalidRead => false
  | .invalidBlock => false
  | .outOfFuel => false

/-- Conversion of an integer value to the 32-bit type `int` (two's complement, modulo `2^32`). -/
def wrapInt (z : Int) : Int :=
  (z + 2 ^ 31) % 2 ^ 32 - 2 ^ 31

/-- The conversion `static_cast<int>(n)` of a `std::size_t` value. -/
def staticCastInt (n : Nat) : Int :=
  wrapInt ((n % 2 ^ 64 : Nat) : Int)

/-- The expression `index - 1` for `std::size_t index`, stored into a `std::vector<int>`. -/
def indexMinusOne (index : Nat) : Int :=
  wrapInt (((index + 2 ^ 64 - 1) % 2 ^ 64 : Nat) : Int)

/-- The element `v[i]` of a `std::vector` for an `int` index; outside the vector it is
undefined behaviour. -/
def vecAt {α : Type} (v : List α) (i : Int) : Except Error α :=
  if 0 ≤ i then
    match v[i.toNat]? with
    | some x => .ok x
    | none => .error .invalidRead
  else .error .invalidRead

/-- The value `*std::max_element(v.begin(), v.end())`; on an empty vector the
iterator is `end()` and the dereference is undefined behaviour. -/
def maxElement : List Int → Except Error Int
  | [] => .error .invalidRead
  | x :: xs => .ok (xs.foldl (fun largest y => if largest < y then y else largest) x)

/-- The data of `rbd::MultiBody`: the seven vectors its constructor receives. -/
structure MultiBody (A : Deps) where
  /-- The vector `bodies_`. -/
  bodies : List A.Body
  /-- The vector `joints_`. -/
  joints : List A.Joint
  /-- The vector `pred_`. -/
  pred : List Int
  /-- The vector `succ_`. -/
  succ : List Int
  /-- The vector `parent_`. -/
  parent : List Int
  /-- The vector `Xfrom_`. -/
  Xfrom : List A.PTransform
  /-- The vector `Xto_`. -/
  Xto : List A.PTransform

/-- The count `mb.nrBodies()`. -/
def MultiBody.nrBodies {A : Deps} (mb : MultiBody A) : Nat := mb.bodies.length

/-- The count `mb.nrJoints()`. -/
def MultiBody.nrJoints {A : Deps} (mb : MultiBody A) : Nat := mb.joints.length

/-- The part of `rbd::MultiBodyConfig` that `Jacobian.cpp` reads. -/
structure MultiBodyConfig (A : Deps) where
  /-- The vector `jointConfig`: local transform of each joint. -/
  jointConfig : List A.PTransform
  /-- The vector `bodyPosW`: world pose of each body. -/
  bodyPosW : List A.PTransform

/-- Modelled from the spec: `checkMatchBodyPos` is defined in `MultiBodyConfig.cpp`,
which is not among the sources; it verifies that the configuration's per-body
array has a size matching the topology and raises the configuration-size
mismatch otherwise. -/
def checkMatchBodyPos {A : Deps} (mb : MultiBody A) (mbc : MultiBodyConfig A) : Except Error Unit :=
  if mbc.bodyPosW.length = mb.nrBodies then .ok () else .error .configMismatch

/-- Modelled from the spec: `checkMatchJointConf` is defined in `MultiBodyConfig.cpp`,
which is not among the sources; it verifies that the configuration's per-joint
array has a size matching the topology and raises the configuration-size
mismatch otherwise. -/
def checkMatchJointConf {A : Deps} (mb : MultiBody A) (mbc : MultiBodyConfig A) : Except Error Unit :=
  if mbc.jointConfig.length = mb.nrJoints then .ok () else .error .configMismatch

/-- An `Eigen::MatrixXd` whose columns are six-vectors: the row count and the
columns in order (a matrix with no coefficient has no column). -/
structure MatrixXd (A : Deps) where
  /-- The row count `rows()`. -/
  rows : Nat
  /-- The columns, left to right; `cols()` is their number. -/
  columns : List A.Vector6d

/-- The default-constructed matrix `jac_()`, of size 0x0. -/
def MatrixXd.empty (A : Deps) : MatrixXd A := ⟨0, []⟩

/-- The call `m.resize(6, cols)`: a 6 x `cols` matrix whose coefficients are whatever
the fresh storage `mem` holds; a negative size violates Eigen's assertion. -/
def MatrixXd.resize6 {A : Deps} (mem : Nat → A.Vector6d) (cols : Int) : Except Error (MatrixXd A) :=
  if 0 ≤ cols then .ok ⟨6, (List.range cols.toNat).map mem⟩ else .error .invalidBlock

/-- The assignment `m.block(0, startCol, 6, blockCols) = B` for a matrix `B` with six
rows given by its columns.  Eigen requires the block to lie inside `m` and `B` to
have exactly `blockCols` columns. -/
def MatrixXd.setBlock {A : Deps} (m : MatrixXd A) (startCol blockCols : Int)
    (B : List A.Vector6d) : Except Error (MatrixXd A) :=
  if 0 ≤ startCol ∧ 0 ≤ blockCols ∧ 6 ≤ m.rows ∧ startCol + blockCols ≤ (m.columns.length : Int)
      ∧ (B.length : Int) = blockCols then
    .ok ⟨m.rows, m.columns.take startCol.toNat ++ B ++ m.columns.drop (startCol.toNat + blockCols.toNat)⟩
  else .error .invalidBlock

/-- The state of an `rbd::Jacobian` object. -/
structure Jacobian (A : Deps) where
  /-- The member `jointsPath_`. -/
  jointsPath : List Int
  /-- The member `point_`. -/
  point : A.Vector3d
  /-- The member `jac_`. -/
  jac : MatrixXd A

/-- The `while` loop of the constructor: from `index`, with the path and the
dof accumulated so far; `fuel` bounds the number of iterations. -/
def Jacobian.walk {A : Deps} (mb : MultiBody A) : Nat → Int → List Int → Int → Except Error (List Int × Int)
  | fuel, index, path, dof =>
    if index = -1 then .ok (path, dof)
    else
      match fuel with
      | 0 => .error .outOfFuel
      | fuel + 1 =>
        match vecAt mb.joints index with
        | .error e => .error e
        | .ok j =>
          match vecAt mb.parent index with
          | .error e => .error e
          | .ok p => Jacobian.walk mb fuel p (index :: path) (dof + A.dof j)

/-- The constructor `Jacobian(mb, bodyId, point)` after the identifier has been
resolved to `index`: the upward walk, then `jac_.resize(6, dof)`. -/
def Jacobian.ofIndex {A : Deps} (mem : Nat → A.Vector6d) (fuel : Nat) (mb : MultiBody A)
    (index : Int) (point : A.Vector3d) : Except Error (Jacobian A) :=
  match Jacobian.walk mb fuel index [] 0 with
  | .error e => .error e
  | .ok (path, dof) =>
    match MatrixXd.resize6 mem dof with
    | .error e => .error e
    | .ok jac => .ok ⟨path, point, jac⟩

/-- The constructor `Jacobian(mb, bodyId, point)`.  The lookup `mb.sBodyIndexById`
is declared in `MultiBody.h`; it is the parameter `sBodyIndexById`, which answers
`none` when it throws `std::out_of_range`. -/
def Jacobian.new {A : Deps} (sBodyIndexById : MultiBody A → Int → Option Int)
    (mem : Nat → A.Vector6d) (fuel : Nat) (mb : MultiBody A)
    (bodyId : Int) (point : A.Vector3d) : Except Error (Jacobian A) :=
  match sBodyIndexById mb bodyId with
  | none => .error .outOfRange
  | some index => Jacobian.ofIndex mem fuel mb index point

/-- The loop of `subMultiBody` from position `index` on: `rest` is the part of
`jointsPath_` still to visit and `acc` holds the seven vectors filled so far. -/
def Jacobian.subMultiBodyLoop {A : Deps} (mb : MultiBody A) :
    List Int → Nat → MultiBody A → Except Error (MultiBody A)
  | [], _, acc => .ok acc
  | i :: rest, index, acc =>
    match vecAt mb.bodies i with
    | .error e => .error e
    | .ok b =>
      match vecAt mb.joints i with
      | .error e => .error e
      | .ok j =>
        match vecAt mb.Xfrom i with
        | .error e => .error e
        | .ok xf =>
          match vecAt mb.Xto i with
          | .error e => .error e
          | .ok xt =>
            Jacobian.subMultiBodyLoop mb rest (index + 1)
              { bodies := acc.bodies ++ [b]
                joints := acc.joints ++ [j]
                pred := acc.pred ++ [indexMinusOne index]
                succ := acc.succ ++ [staticCastInt index]
                parent := acc.parent ++ [indexMinusOne index]
                Xfrom := acc.Xfrom ++ [xf]
                Xto := acc.Xto ++ [xt] }

/-- The method `subMultiBody(mb)`. -/
def Jacobian.subMultiBody {A : Deps} (self : Jacobian A) (mb : MultiBody A) : Except Error (MultiBody A) :=
  Jacobian.subMultiBodyLoop mb self.jointsPath 0 ⟨[], [], [], [], [], [], []⟩

/-- The right-hand side of the block assignment in `jacobian` for the path entry `i`:
the width `joints[i].dof()` and the columns of
`(X_0_i.inv()*X_i_N*Xt[i]*X_i).matrix()*joints[i].motionSubspace()`. -/
def Jacobian.blockAt {A : Deps} (path : List Int) (mb : MultiBody A) (mbc : MultiBodyConfig A)
    (i : Int) : Except Error (Int × List A.Vector6d) :=
  match vecAt mbc.jointConfig i with
  | .error e => .error e
  | .ok X_i =>
    match vecAt mb.succ i with
    | .error e => .error e
    | .ok s =>
      match vecAt mbc.bodyPosW s with
      | .error e => .error e
      | .ok Ws =>
        match path.getLast? with
        | none => .error .invalidRead
        | some back =>
          match vecAt mbc.bodyPosW back with
          | .error e => .error e
          | .ok Wn =>
            match vecAt mbc.bodyPosW i with
            | .error e => .error e
            | .ok Wi =>
              match vecAt mb.joints i with
              | .error e => .error e
              | .ok j =>
                match vecAt mb.Xto i with
                | .error e => .error e
                | .ok Xt =>
                  .ok (A.dof j,
                    (A.motionSubspace j).map
                      (A.matrixMul
                        (A.mul (A.mul (A.mul (A.inv (A.rotationOnly Ws)) (A.mul Wn (A.inv Wi))) Xt) X_i)))

/-- The `for` loop of `jacobian`: `rest` is the part of the path still to visit,
`curJ` the running column and `jac` the matrix; the matrix is returned as it
stands when the loop ends or faults. -/
def Jacobian.jacobianLoop {A : Deps} (path : List Int) (mb : MultiBody A) (mbc : MultiBodyConfig A) :
    List Int → Int → MatrixXd A → Except Error Unit × MatrixXd A
  | [], _, jac => (.ok (), jac)
  | i :: rest, curJ, jac =>
    match Jacobian.blockAt path mb mbc i with
    | .error e => (.error e, jac)
    | .ok (d, B) =>
      match jac.setBlock curJ d B with
      | .error e => (.error e, jac)
      | .ok jac1 => Jacobian.jacobianLoop path mb mbc rest (curJ + d) jac1

/-- The method `jacobian(mb, mbc)`: the returned matrix (or the fault) and the object afterwards. -/
def Jacobian.jacobian {A : Deps} (self : Jacobian A) (mb : MultiBody A) (mbc : MultiBodyConfig A) :
    Except Error (MatrixXd A) × Jacobian A :=
  match Jacobian.jacobianLoop self.jointsPath mb mbc self.jointsPath 0 self.jac with
  | (.ok (), jac) => (.ok jac, ⟨self.jointsPath, self.point, jac⟩)
  | (.error e, jac) => (.error e, ⟨self.jointsPath, self.point, jac⟩)

/-- The method `sJacobian(mb, mbc)`: the returned matrix (or the error) and the object afterwards. -/
def Jacobian.sJacobian {A : Deps} (self : Jacobian A) (mb : MultiBody A) (mbc : MultiBodyConfig A) :
    Except Error (MatrixXd A) × Jacobian A :=
  match checkMatchBodyPos mb mbc with
  | .error e => (.error e, self)
  | .ok () =>
    match checkMatchJointConf mb mbc with
    | .error e => (.error e, self)
    | .ok () =>
      match maxElement self.jointsPath with
      | .error e => (.error e, self)
      | .ok m =>
        if m ≥ staticCastInt mb.nrJoints then (.error .pathMismatch, self)
        else self.jacobian mb mbc

/-- The method `sSubMultiBody(mb)`. -/
def Jacobian.sSubMultiBody {A : Deps} (self : Jacobian A) (mb : MultiBody A) : Except Error (MultiBody A) :=
  match maxElement self.jointsPath with
  | .error e => .error e
  | .ok m =>
    if m ≥ staticCastInt mb.nrJoints then .error .pathMismatch
    else self.subMultiBody mb

/-- A small instance of the collaborators over the integers, on which the embedding
is evaluated at concrete inputs: a transform is an integer under addition, a
column is an integer, a joint is the list of its motion-subspace columns. -/
@[reducible]
def intDeps : Deps where
  Body := Nat
  Joint := List Int
  PTransform := Int
  Vector3d := Int
  Vector6d := Int
  dof := fun j => (j.length : Int)
  motionSubspace := fun j => j
  mul := fun x y => x + y
  inv := fun x => -x
  rotationOnly := fun x => 2 * x
  matrixMul := fun x v => x * v

/-- The dof of the joint at index `i` of `mb` (0 when `i` is not an index of `joints_`). -/
def dofAt {A : Deps} (mb : MultiBody A) (i : Int) : Int :=
  match vecAt mb.joints i with
  | .ok j => A.dof j
  | .error _ => 0

/-- The sum of the dofs of the joints of `mb` at the indices listed in `path`. -/
def pathDof {A : Deps} (mb : MultiBody A) (path : List Int) : Int :=
  (path.map (dofAt mb)).sum

/-- The relation "`p` is the entry of `parent_` at the index `i`". -/
def parentRel {A : Deps} (mb : MultiBody A) (p i : Int) : Prop :=
  vecAt mb.parent i = .ok p

/-- The list `pre` is the root-first ancestor chain of `i` in `mb`: empty for the
sentinel `-1`, otherwise the chain of the parent of `i` followed by `i`. -/
inductive AncestorChain {A : Deps} (mb : MultiBody A) : List Int → Int → Prop where
  | root : AncestorChain mb [] (-1)
  | step {pre : List Int} {i p : Int} : i ≠ -1 → vecAt mb.parent i = .ok p →
      AncestorChain mb pre p → AncestorChain mb (pre ++ [i]) i

/-- A tree of five bodies used to evaluate the definitions: body 0 is the root,
bodies 2 and 3 are both children of body 1, body 4 is a child of body 3; the
joints have 0, 1, 3, 1 and 3 dofs. -/
def exampleTree : MultiBody intDeps where
  bodies := [100, 101, 102, 103, 104]
  joints := [[], [10], [20, 21, 22], [30], [40, 41, 42]]
  pred := [-1, 0, 1, 1, 3]
  succ := [0, 1, 2, 3, 4]
  parent := [-1, 0, 1, 1, 3]
  Xfrom := [1, 2, 3, 4, 5]
  Xto := [6, 7, 8, 9, 10]

/-- A configuration of `exampleTree`. -/
def exampleConfig : MultiBodyConfig intDeps where
  jointConfig := [1, 1, 2, 3, 5]
  bodyPosW := [8, 13, 21, 34, 55]

/-- The object after a sequence of `jacobian` calls, one per listed pair of
arguments, whatever each call returns. -/
def Jacobian.afterCalls {A : Deps} (self : Jacobian A)
    (calls : List (MultiBody A × MultiBodyConfig A)) : Jacobian A :=
  calls.foldl (fun e c => (e.jacobian c.1 c.2).2) self

/-- Every index listed in `path` is an index of the body, joint and fixed-transform
vectors of `mb`. -/
def ContainsPath {A : Deps} (mb : MultiBody A) (path : List Int) : Prop :=
  ∀ i ∈ path, 0 ≤ i ∧ i < mb.bodies.length ∧ i < mb.joints.length ∧
    i < mb.Xfrom.length ∧ i < mb.Xto.length

/-- The engine built on `exampleTree` for body 4: path `0, 1, 3, 4`, five columns. -/
def exampleEngine : Jacobian intDeps where
  jointsPath := [0, 1, 3, 4]
  point := 0
  jac := ⟨6, [0, 0, 0, 0, 0]⟩

/-- The first three bodies and joints of `exampleTree`: a topology too small for
the path of `exampleEngine`, whose greatest index is 4. -/
def truncatedTree : MultiBody intDeps where
  bodies := [100, 101, 102]
  joints := [[], [10], [20, 21, 22]]
  pred := [-1, 0, 1]
  succ := [0, 1, 2]
  parent := [-1, 0, 1]
  Xfrom := [1, 2, 3]
  Xto := [6, 7, 8]

/-- A configuration of `truncatedTree`. -/
def truncatedConfig : MultiBodyConfig intDeps where
  jointConfig := [1, 1, 2]
  bodyPosW := [8, 13, 21]

/-- Every index listed in `path` is an index of the vectors that `jacobian` reads
with it (joints, successors, `transformTo`, joint configurations, body poses),
and the successor recorded for it is an index of the body poses. -/
def ReadsInRange {A : Deps} (path : List Int) (mb : MultiBody A) (mbc : MultiBodyConfig A) : Prop :=
  ∀ i ∈ path, 0 ≤ i ∧ i < mb.joints.length ∧ i < mb.Xto.length ∧
    i < mbc.jointConfig.length ∧ i < mbc.bodyPosW.length ∧
    ∃ s, vecAt mb.succ i = .ok s ∧ 0 ≤ s ∧ s < mbc.bodyPosW.length

/-- The block of joint `i` as the specification words it: with `X_i` the joint's
configuration transform, `X_0_i` the rotation-only transform of the world pose of
the successor body, `X_i_N` the pose of the last body of the path times the
inverse pose of body `i`, `Xt` the joint's fixed `transformTo` and `S` its
motion subspace, the columns of `(X_0_i⁻¹ * X_i_N * Xt * X_i).matrix() * S`. -/
def specBlock {A : Deps} (path : List Int) (mb : MultiBody A) (mbc : MultiBodyConfig A)
    (i : Int) : Option (List A.Vector6d) := do
  let X_i ← mbc.jointConfig[i.toNat]?
  let s ← mb.succ[i.toNat]?
  let X_0_i := A.rotationOnly (← mbc.bodyPosW[s.toNat]?)
  let n ← path.getLast?
  let X_i_N := A.mul (← mbc.bodyPosW[n.toNat]?) (A.inv (← mbc.bodyPosW[i.toNat]?))
  let Xt ← mb.Xto[i.toNat]?
  let S := A.motionSubspace (← mb.joints[i.toNat]?)
  pure (S.map (A.matrixMul (A.mul (A.mul (A.mul (A.inv X_0_i) X_i_N) Xt) X_i)))

/-- The vectors that the validated operations index with a path entry (bodies,
joints, successors, fixed transforms) have one entry per joint, and every
successor is the index of a body. -/
def MultiBody.Consistent {A : Deps} (mb : MultiBody A) : Prop :=
  mb.bodies.length = mb.joints.length ∧ mb.succ.length = mb.joints.length ∧
    mb.Xfrom.length = mb.joints.length ∧ mb.Xto.length = mb.joints.length ∧
    ∀ s ∈ mb.succ, 0 ≤ s ∧ s < mb.bodies.length

/-- The topology `exampleTree` with joint 4 replaced by a joint of six dofs: same
sizes, same adjacency, but the path `0, 1, 3, 4` now carries eight dofs instead
of five. -/
def widerTree : MultiBody intDeps where
  bodies := [100, 101, 102, 103, 104]
  joints := [[], [10], [20, 21, 22], [30], [40, 41, 42, 43, 44, 45]]
  pred := [-1, 0, 1, 1, 3]
  succ := [0, 1, 2, 3, 4]
  parent := [-1, 0, 1, 1, 3]
  Xfrom := [1, 2, 3, 4, 5]
  Xto := [6, 7, 8, 9, 10]

/-- The statement of the absence of partial results for one call of `sJacobian`:
either a check throws and the object is as before the call, or the call returns
normally a matrix of six rows that is the owned matrix and consists of the
blocks of all the path entries. -/
def NoPartialResult {A : Deps} (self : Jacobian A) (mb : MultiBody A) (mbc : MultiBodyConfig A) : Prop :=
  ((∃ e, (self.sJacobian mb mbc).1 = .error e ∧ e.thrown = true) ∧
    (self.sJacobian mb mbc).2 = self) ∨
  (∃ M : MatrixXd A, self.sJacobian mb mbc = (.ok M, ⟨self.jointsPath, self.point, M⟩) ∧
    M.rows = 6 ∧ M.columns.length = self.jac.columns.length ∧
    M.columns = (self.jointsPath.map (fun i => (specBlock self.jointsPath mb mbc i).getD [])).flatten)

/-- The motion subspace of the joint at index `i` of `mb`, as its list of columns
(no column when `i` is not an index of `joints_`). -/
def subspaceAt {A : Deps} (mb : MultiBody A) (i : Int) : List A.Vector6d :=
  match vecAt mb.joints i with
  | .ok j => A.motionSubspace j
  | .error _ => []

/-- A one-dimensional analogue of the spatial algebra, on which the embedding is
evaluated at concrete inputs: a transform is a pair `(s, r)` of a sign (the
rotation) and a translation, with `(s1, r1) * (s2, r2) = (s1 * s2, r2 + s2 * r1)`
and `(s, r)⁻¹ = (s, -(s * r))`; a column is a pair `(a, l)` of an angular and a
linear coordinate, on which `(s, r)` acts as `(s * a, s * l - s * r * a)`; a joint
is the list of its motion-subspace columns.  The identity is `(1, 0)`. -/
@[reducible]
def lineDeps : Deps where
  Body := Nat
  Joint := List (Int × Int)
  PTransform := Int × Int
  Vector3d := Int
  Vector6d := Int × Int
  dof := fun j => (j.length : Int)
  motionSubspace := fun j => j
  mul := fun x y => (x.1 * y.1, y.2 + y.1 * x.2)
  inv := fun x => (x.1, -(x.1 * x.2))
  rotationOnly := fun x => (x.1, 0)
  matrixMul := fun x v => (x.1 * v.1, x.1 * v.2 - x.1 * x.2 * v.1)

/-- A serial chain of three joints with one dof each, all of whose fixed transforms
are the identity. -/
def identityChain : MultiBody lineDeps where
  bodies := [100, 101, 102]
  joints := [[(1, 0)], [(0, 1)], [(1, 1)]]
  pred := [-1, 0, 1]
  succ := [0, 1, 2]
  parent := [-1, 0, 1]
  Xfrom := [(1, 0), (1, 0), (1, 0)]
  Xto := [(1, 0), (1, 0), (1, 0)]

/-- The zero configuration of `identityChain`: every joint transform and every
world pose is the identity. -/
def identityConfig : MultiBodyConfig lineDeps where
  jointConfig := [(1, 0), (1, 0), (1, 0)]
  bodyPosW := [(1, 0), (1, 0), (1, 0)]

/-- The engine built on `identityChain` for its last body. -/
def identityEngine : Jacobian lineDeps where
  jointsPath := [0, 1, 2]
  point := 0
  jac := ⟨6, [(0, 0), (0, 0), (0, 0)]⟩

/-- The topology `exampleTree` with only three bodies for its five joints: the joint
count, which is all the maximum-index check looks at, is unchanged. -/
def fewBodies : MultiBody intDeps where
  bodies := [100, 101, 102]
  joints := [[], [10], [20, 21, 22], [30], [40, 41, 42]]
  pred := [-1, 0, 1, 1, 3]
  succ := [0, 1, 2, 3, 4]
  parent := [-1, 0, 1, 1, 3]
  Xfrom := [1, 2, 3, 4, 5]
  Xto := [6, 7, 8, 9, 10]

/-- A configuration whose sizes match `fewBodies`: five joint transforms, three
world poses. -/
def fewBodiesConfig : MultiBodyConfig intDeps where
  jointConfig := [1, 1, 2, 3, 5]
  bodyPosW := [8, 13, 21]

/-- The topology `exampleTree` with the successor of joint 4 set to 9, which is not
the index of a body; all seven vectors still have five entries. -/
def badSucc : MultiBody intDeps where
  bodies := [100, 101, 102, 103, 104]
  joints := [[], [10], [20, 21, 22], [30], [40, 41, 42]]
  pred := [-1, 0, 1, 1, 3]
  succ := [0, 1, 2, 3, 9]
  parent := [-1, 0, 1, 1, 3]
  Xfrom := [1, 2, 3, 4, 5]
  Xto := [6, 7, 8, 9, 10]


/-! ## Basic facts on the helpers -/

theorem vecAt_ok_iff {α : Type} (v : List α) (i : Int) (x : α) :
    vecAt v i = .ok x ↔ 0 ≤ i ∧ v[i.toNat]? = some x := by
  unfold vecAt
  by_cases h : 0 ≤ i
  · simp only [h, if_true, true_and]
    cases hv : v[i.toNat]? <;> simp
  · simp [h]

theorem vecAt_of_lt {α : Type} (v : List α) (i : Int) (h0 : 0 ≤ i) (h1 : i < v.length) :
    ∃ x, vecAt v i = .ok x := by
  have hlt : i.toNat < v.length := by omega
  exact ⟨v[i.toNat], (vecAt_ok_iff v i _).2 ⟨h0, List.getElem?_eq_getElem hlt⟩⟩

theorem vecAt_ok_lt {α : Type} {v : List α} {i : Int} {x : α} (h : vecAt v i = .ok x) :
    0 ≤ i ∧ i < v.length := by
  obtain ⟨h0, h1⟩ := (vecAt_ok_iff v i x).1 h
  have := (List.getElem?_eq_some_iff.1 h1).1
  omega

theorem vecAt_ok_mem {α : Type} {v : List α} {i : Int} {x : α} (h : vecAt v i = .ok x) :
    x ∈ v := by
  obtain ⟨_, h1⟩ := (vecAt_ok_iff v i x).1 h
  exact List.getElem?_mem h1

theorem vecAt_error {α : Type} {v : List α} {i : Int} {e : Error} (h : vecAt v i = .error e) :
    e = .invalidRead := by
  unfold vecAt at h
  split at h
  · split at h
    · cases h
    · cases h; rfl
  · cases h; rfl


/-! ## The upward walk of the constructor -/

theorem walk_sentinel {A : Deps} (mb : MultiBody A) (fuel : Nat) (path : List Int) (dof : Int) :
    Jacobian.walk mb fuel (-1) path dof = .ok (path, dof) := by
  unfold Jacobian.walk
  simp

theorem walk_succ {A : Deps} (mb : MultiBody A) (fuel : Nat) (i p : Int) (j : A.Joint)
    (path : List Int) (dof : Int) (hi : i ≠ -1)
    (hj : vecAt mb.joints i = .ok j) (hp : vecAt mb.parent i = .ok p) :
    Jacobian.walk mb (fuel + 1) i path dof = Jacobian.walk mb fuel p (i :: path) (dof + A.dof j) := by
  rw [Jacobian.walk]
  simp [hi, hj, hp]

/-- Whatever the walk returns is the ancestor chain of its start, put in front of
the path it was given, together with the dofs of that chain. -/
theorem walk_ok {A : Deps} (mb : MultiBody A) :
    ∀ (fuel : Nat) (i : Int) (path : List Int) (dof : Int) (r : List Int × Int),
      Jacobian.walk mb fuel i path dof = .ok r →
      ∃ pre, r.1 = pre ++ path ∧ AncestorChain mb pre i ∧ r.2 = dof + pathDof mb pre ∧
        ∀ x ∈ pre, ∃ j, vecAt mb.joints x = .ok j := by
  intro fuel
  induction fuel with
  | zero =>
    intro i path dof r h
    unfold Jacobian.walk at h
    by_cases hi : i = -1
    · subst hi
      simp at h
      subst h
      exact ⟨[], by simp, AncestorChain.root, by simp [pathDof], by simp⟩
    · simp [hi] at h
  | succ fuel ih =>
    intro i path dof r h
    by_cases hi : i = -1
    · subst hi
      rw [walk_sentinel] at h
      cases h
      exact ⟨[], by simp, AncestorChain.root, by simp [pathDof], by simp⟩
    · rw [Jacobian.walk] at h
      simp only [hi, if_false] at h
      cases hj : vecAt mb.joints i with
      | error e => simp [hj] at h
      | ok j =>
        cases hp : vecAt mb.parent i with
        | error e => simp [hj, hp] at h
        | ok p =>
          simp only [hj, hp] at h
          obtain ⟨pre, h1, h2, h3, h4⟩ := ih p (i :: path) (dof + A.dof j) r h
          refine ⟨pre ++ [i], by simp [h1], AncestorChain.step hi hp h2, ?_, ?_⟩
          · simp only [pathDof, List.map_append, List.sum_append, List.map_cons, List.map_nil,
              List.sum_cons, List.sum_nil] at h3 ⊢
            simp only [dofAt, hj]
            omega
          · intro x hx
            rcases List.mem_append.1 hx with hx | hx
            · exact h4 x hx
            · simp at hx
              subst hx
              exact ⟨j, hj⟩

/-- More fuel does not change a result already obtained. -/
theorem walk_mono {A : Deps} (mb : MultiBody A) :
    ∀ (fuel : Nat) (i : Int) (path : List Int) (dof : Int) (r : List Int × Int),
      Jacobian.walk mb fuel i path dof = .ok r →
      ∀ fuel2, fuel ≤ fuel2 → Jacobian.walk mb fuel2 i path dof = .ok r := by
  intro fuel
  induction fuel with
  | zero =>
    intro i path dof r h fuel2 _
    by_cases hi : i = -1
    · subst hi
      rw [walk_sentinel] at h ⊢
      exact h
    · unfold Jacobian.walk at h
      simp [hi] at h
  | succ fuel ih =>
    intro i path dof r h fuel2 hle
    by_cases hi : i = -1
    · subst hi
      rw [walk_sentinel] at h ⊢
      exact h
    · obtain ⟨f2, rfl⟩ : ∃ f2, fuel2 = f2 + 1 := ⟨fuel2 - 1, by omega⟩
      rw [Jacobian.walk] at h
      simp only [hi, if_false] at h
      cases hj : vecAt mb.joints i with
      | error e => simp [hj] at h
      | ok j =>
        cases hp : vecAt mb.parent i with
        | error e => simp [hj, hp] at h
        | ok p =>
          simp only [hj, hp] at h
          rw [walk_succ mb f2 i p j path dof hi hj hp]
          exact ih p (i :: path) (dof + A.dof j) r h f2 (by omega)


/-! ## Ancestor chains -/

theorem chain_cases {A : Deps} {mb : MultiBody A} {pre : List Int} {i : Int}
    (h : AncestorChain mb pre i) :
    (pre = [] ∧ i = -1) ∨
      ∃ pre0 p, pre = pre0 ++ [i] ∧ i ≠ -1 ∧ vecAt mb.parent i = .ok p ∧ AncestorChain mb pre0 p := by
  cases h with
  | root => exact Or.inl ⟨rfl, rfl⟩
  | step hi hp hc => exact Or.inr ⟨_, _, rfl, hi, hp, hc⟩

theorem chain_last {A : Deps} {mb : MultiBody A} {pre : List Int} {i : Int}
    (h : AncestorChain mb pre i) (hi : i ≠ -1) : pre.getLast? = some i := by
  rcases chain_cases h with ⟨_, h1⟩ | ⟨pre0, p, rfl, _, _, _⟩
  · exact absurd h1 hi
  · simp

theorem chain_head {A : Deps} {mb : MultiBody A} {pre : List Int} {i : Int}
    (h : AncestorChain mb pre i) (hi : i ≠ -1) :
    ∃ r, pre.head? = some r ∧ vecAt mb.parent r = .ok (-1) := by
  induction h with
  | root => exact absurd rfl hi
  | @step pre0 i p hi0 hp hc ih =>
    by_cases hp1 : p = -1
    · subst hp1
      rcases chain_cases hc with ⟨h0, _⟩ | ⟨_, _, _, h1, _, _⟩
      · subst h0
        exact ⟨i, by simp, hp⟩
      · exact absurd rfl h1
    · obtain ⟨r, hr, hr2⟩ := ih hp1
      refine ⟨r, ?_, hr2⟩
      cases pre0 with
      | nil => simp at hr
      | cons a l => simpa using hr

theorem chain_consecutive {A : Deps} {mb : MultiBody A} {pre : List Int} {i : Int}
    (h : AncestorChain mb pre i) :
    ∀ (k : Nat) (a b : Int), pre[k]? = some a → pre[k + 1]? = some b → vecAt mb.parent b = .ok a := by
  induction h with
  | root => intro k a b ha; simp at ha
  | @step pre0 i p hi0 hp hc ih =>
    intro k a b ha hb
    have hk1 : k + 1 < (pre0 ++ [i]).length := (List.getElem?_eq_some_iff.1 hb).1
    simp only [List.length_append, List.length_singleton] at hk1
    have hk : k < pre0.length := by omega
    rw [List.getElem?_append_left hk] at ha
    by_cases hlt : k + 1 < pre0.length
    · rw [List.getElem?_append_left hlt] at hb
      exact ih k a b ha hb
    · have hkeq : k + 1 = pre0.length := by omega
      rw [List.getElem?_append_right (by omega)] at hb
      simp [hkeq] at hb
      subst hb
      have hne : p ≠ -1 := by
        rintro rfl
        rcases chain_cases hc with ⟨h0, _⟩ | ⟨_, _, _, h1, _, _⟩
        · subst h0; simp at hk
        · exact absurd rfl h1
      have hl := chain_last hc hne
      rw [List.getLast?_eq_getElem?] at hl
      have : pre0.length - 1 = k := by omega
      rw [this, ha] at hl
      cases hl
      exact hp

theorem chain_nonneg {A : Deps} {mb : MultiBody A} {pre : List Int} {i : Int}
    (h : AncestorChain mb pre i) : ∀ x ∈ pre, 0 ≤ x ∧ x < mb.parent.length := by
  induction h with
  | root => intro x hx; simp at hx
  | @step pre0 i p hi0 hp hc ih =>
    intro x hx
    rcases List.mem_append.1 hx with hx | hx
    · exact ih x hx
    · simp at hx
      subst hx
      exact vecAt_ok_lt hp

theorem dofAt_nonneg {A : Deps} (mb : MultiBody A) (hdof : ∀ j ∈ mb.joints, 0 ≤ A.dof j) (i : Int) :
    0 ≤ dofAt mb i := by
  unfold dofAt
  cases h : vecAt mb.joints i with
  | error e => simp
  | ok j => exact hdof j (vecAt_ok_mem h)

theorem pathDof_nonneg {A : Deps} (mb : MultiBody A) (hdof : ∀ j ∈ mb.joints, 0 ≤ A.dof j)
    (path : List Int) : 0 ≤ pathDof mb path := by
  unfold pathDof
  apply List.sum_nonneg
  intro x hx
  obtain ⟨i, _, rfl⟩ := List.mem_map.1 hx
  exact dofAt_nonneg mb hdof i

/-- From an accessible start the walk returns once it has enough fuel. -/
theorem walk_exists {A : Deps} (mb : MultiBody A)
    (hlen : mb.parent.length = mb.joints.length)
    (hpar : ∀ p ∈ mb.parent, -1 ≤ p ∧ p < mb.parent.length) :
    ∀ i : Int, Acc (parentRel mb) i → (i = -1 ∨ (0 ≤ i ∧ i < mb.parent.length)) →
      ∀ (path : List Int) (dof : Int), ∃ fuel r, Jacobian.walk mb fuel i path dof = .ok r := by
  intro i hacc
  induction hacc with
  | intro i _ ih =>
    intro hi path dof
    by_cases h1 : i = -1
    · subst h1
      exact ⟨0, _, walk_sentinel mb 0 path dof⟩
    · have hr : 0 ≤ i ∧ i < mb.parent.length := by
        rcases hi with h | h
        · exact absurd h h1
        · exact h
      obtain ⟨p, hp⟩ := vecAt_of_lt mb.parent i hr.1 hr.2
      obtain ⟨j, hj⟩ := vecAt_of_lt mb.joints i hr.1 (by omega)
      have hpm := hpar p (vecAt_ok_mem hp)
      have hp2 : p = -1 ∨ (0 ≤ p ∧ p < mb.parent.length) := by omega
      obtain ⟨fuel, r, hw⟩ := ih p hp hp2 (i :: path) (dof + A.dof j)
      exact ⟨fuel + 1, r, by rw [walk_succ mb fuel i p j path dof h1 hj hp]; exact hw⟩

/-- A parent array whose entries lie below their index (and not below `-1`) gives a
well-founded parent relation. -/
theorem parentRel_wf_of_lt {A : Deps} (mb : MultiBody A)
    (h : ∀ (n : Nat) (p : Int), mb.parent[n]? = some p → -1 ≤ p ∧ p < n) :
    WellFounded (parentRel mb) := by
  have hsub : ∀ p i : Int, parentRel mb p i → (p + 1).toNat < (i + 1).toNat := by
    intro p i hpi
    obtain ⟨h0, h1⟩ := (vecAt_ok_iff _ _ _).1 hpi
    have := h _ _ h1
    omega
  exact Subrelation.wf (fun {p i} hpi => hsub p i hpi) (measure (fun i : Int => (i + 1).toNat)).wf


/-! ## The constructor -/

theorem exampleTree_parent_lt :
    ∀ (n : Nat) (p : Int), exampleTree.parent[n]? = some p → -1 ≤ p ∧ p < n := by
  intro n p h
  rcases n with _ | _ | _ | _ | _ | n <;> simp [exampleTree] at h <;> omega

/-- C2: for a topology whose parent relation is well founded (with one joint per
body, parent entries that are the sentinel or an index, and non-negative joint
dofs) and a target index `t` of it, the constructor returns as soon as it has
enough fuel, and the path it builds is the root-first ancestor chain of `t`: its
last element is `t`, the parent of its first element is the sentinel `-1`, and
the parent of each element is the element before it. -/
theorem C2_path_is_ancestor_chain {A : Deps} (mem : Nat → A.Vector6d) (mb : MultiBody A)
    (t : Int) (point : A.Vector3d)
    (hwf : WellFounded (parentRel mb))
    (hlen : mb.parent.length = mb.joints.length)
    (hpar : ∀ p ∈ mb.parent, -1 ≤ p ∧ p < mb.parent.length)
    (hdof : ∀ j ∈ mb.joints, 0 ≤ A.dof j)
    (ht : 0 ≤ t ∧ t < mb.parent.length) :
    ∃ (N : Nat) (eng : Jacobian A),
      (∀ fuel, N ≤ fuel → Jacobian.ofIndex mem fuel mb t point = .ok eng) ∧
      eng.jointsPath.getLast? = some t ∧
      (∃ r, eng.jointsPath.head? = some r ∧ vecAt mb.parent r = .ok (-1)) ∧
      ∀ (k : Nat) (a b : Int), eng.jointsPath[k]? = some a → eng.jointsPath[k + 1]? = some b →
        vecAt mb.parent b = .ok a := by
  obtain ⟨N, r, hw⟩ := walk_exists mb hlen hpar t (hwf.apply t) (Or.inr ht) [] 0
  obtain ⟨pre, h1, hc, h3, _⟩ := walk_ok mb N t [] 0 r hw
  obtain ⟨path, dof⟩ := r
  simp only [List.append_nil] at h1
  subst h1
  simp only [zero_add] at h3
  have hd : 0 ≤ dof := h3 ▸ pathDof_nonneg mb hdof path
  have hne : t ≠ -1 := by omega
  refine ⟨N, ⟨path, point, ⟨6, (List.range dof.toNat).map mem⟩⟩, ?_, chain_last hc hne,
    chain_head hc hne, chain_consecutive hc⟩
  intro fuel hle
  unfold Jacobian.ofIndex
  rw [walk_mono mb N t [] 0 _ hw fuel hle]
  simp [MatrixXd.resize6, hd]

/-- Instance of C2 on `exampleTree` for the target body 4. -/
theorem C2_path_is_ancestor_chain_witness :
    ∃ (N : Nat) (eng : Jacobian intDeps),
      (∀ fuel, N ≤ fuel → Jacobian.ofIndex (fun _ => 0) fuel exampleTree 4 0 = .ok eng) ∧
      eng.jointsPath.getLast? = some 4 ∧
      (∃ r, eng.jointsPath.head? = some r ∧ vecAt exampleTree.parent r = .ok (-1)) ∧
      ∀ (k : Nat) (a b : Int), eng.jointsPath[k]? = some a → eng.jointsPath[k + 1]? = some b →
        vecAt exampleTree.parent b = .ok a :=
  C2_path_is_ancestor_chain (fun _ => 0) exampleTree 4 0
    (parentRel_wf_of_lt exampleTree exampleTree_parent_lt)
    (by decide) (by decide) (by decide) (by decide)


/-! ## Dimensions of the owned matrix -/

theorem setBlock_ok_iff {A : Deps} (m : MatrixXd A) (c d : Int) (B : List A.Vector6d)
    (m1 : MatrixXd A) :
    m.setBlock c d B = .ok m1 ↔
      (0 ≤ c ∧ 0 ≤ d ∧ 6 ≤ m.rows ∧ c + d ≤ (m.columns.length : Int) ∧ (B.length : Int) = d) ∧
        m1 = ⟨m.rows, m.columns.take c.toNat ++ B ++ m.columns.drop (c.toNat + d.toNat)⟩ := by
  unfold MatrixXd.setBlock
  split
  · rename_i h
    simp only [Except.ok.injEq, h, true_and, and_self]
    exact eq_comm
  · rename_i h
    simp [h]

theorem setBlock_error {A : Deps} {m : MatrixXd A} {c d : Int} {B : List A.Vector6d} {e : Error}
    (h : m.setBlock c d B = .error e) : e = .invalidBlock := by
  unfold MatrixXd.setBlock at h
  split at h
  · cases h
  · cases h; rfl

theorem setBlock_dims {A : Deps} {m m1 : MatrixXd A} {c d : Int} {B : List A.Vector6d}
    (h : m.setBlock c d B = .ok m1) :
    m1.rows = m.rows ∧ m1.columns.length = m.columns.length := by
  obtain ⟨⟨h0, h1, _, h3, h4⟩, rfl⟩ := (setBlock_ok_iff m c d B m1).1 h
  refine ⟨rfl, ?_⟩
  simp only [List.length_append, List.length_take, List.length_drop]
  omega

theorem jacobianLoop_dims {A : Deps} (path : List Int) (mb : MultiBody A) (mbc : MultiBodyConfig A) :
    ∀ (rest : List Int) (curJ : Int) (jac : MatrixXd A),
      (Jacobian.jacobianLoop path mb mbc rest curJ jac).2.rows = jac.rows ∧
      (Jacobian.jacobianLoop path mb mbc rest curJ jac).2.columns.length = jac.columns.length := by
  intro rest
  induction rest with
  | nil => intro curJ jac; simp [Jacobian.jacobianLoop]
  | cons i rest ih =>
    intro curJ jac
    rw [Jacobian.jacobianLoop]
    cases hb : Jacobian.blockAt path mb mbc i with
    | error e => simp
    | ok r =>
      obtain ⟨d, B⟩ := r
      cases hs : jac.setBlock curJ d B with
      | error e => simp [hs]
      | ok jac1 =>
        simp only [hs]
        obtain ⟨h1, h2⟩ := setBlock_dims hs
        obtain ⟨h3, h4⟩ := ih (curJ + d) jac1
        exact ⟨h3.trans h1, h4.trans h2⟩

theorem jacobian_state {A : Deps} (self : Jacobian A) (mb : MultiBody A) (mbc : MultiBodyConfig A) :
    (self.jacobian mb mbc).2 =
      ⟨self.jointsPath, self.point,
        (Jacobian.jacobianLoop self.jointsPath mb mbc self.jointsPath 0 self.jac).2⟩ := by
  unfold Jacobian.jacobian
  split <;> rename_i h <;> simp [h]

theorem afterCalls_dims {A : Deps} (calls : List (MultiBody A × MultiBodyConfig A)) :
    ∀ self : Jacobian A,
      (self.afterCalls calls).jointsPath = self.jointsPath ∧
      (self.afterCalls calls).jac.rows = self.jac.rows ∧
      (self.afterCalls calls).jac.columns.length = self.jac.columns.length := by
  induction calls with
  | nil => intro self; simp [Jacobian.afterCalls]
  | cons c calls ih =>
    intro self
    have h := ih (self.jacobian c.1 c.2).2
    simp only [Jacobian.afterCalls, List.foldl_cons] at h ⊢
    rw [jacobian_state] at h ⊢
    obtain ⟨h1, h2⟩ := jacobianLoop_dims self.jointsPath c.1 c.2 self.jointsPath 0 self.jac
    simp only at h
    exact ⟨h.1, h.2.1.trans h1, h.2.2.trans h2⟩

theorem ofIndex_ok {A : Deps} {mem : Nat → A.Vector6d} {fuel : Nat} {mb : MultiBody A} {t : Int}
    {point : A.Vector3d} {eng : Jacobian A} (h : Jacobian.ofIndex mem fuel mb t point = .ok eng) :
    AncestorChain mb eng.jointsPath t ∧ 0 ≤ pathDof mb eng.jointsPath ∧
      eng.jac = ⟨6, (List.range (pathDof mb eng.jointsPath).toNat).map mem⟩ ∧
      eng.point = point ∧ ∀ x ∈ eng.jointsPath, ∃ j, vecAt mb.joints x = .ok j := by
  unfold Jacobian.ofIndex at h
  cases hw : Jacobian.walk mb fuel t [] 0 with
  | error e => simp [hw] at h
  | ok r =>
    obtain ⟨pre, h1, hc, h3, h4⟩ := walk_ok mb fuel t [] 0 r hw
    obtain ⟨path, dof⟩ := r
    simp only [List.append_nil] at h1
    subst h1
    simp only [zero_add] at h3
    subst h3
    simp only [hw, MatrixXd.resize6] at h
    by_cases hd : 0 ≤ pathDof mb path
    · simp only [hd, if_true, Except.ok.injEq] at h
      subst h
      exact ⟨hc, hd, rfl, rfl, h4⟩
    · simp [hd] at h

/-- C3: when the constructor returns an engine, its matrix has 6 rows and as many
columns as the sum of the dofs of the joints on the path, and after any sequence
of `jacobian` calls (with any arguments, returning normally or not) the matrix
still has those dimensions and the path is the same. -/
theorem C3_matrix_dimensions {A : Deps} (mem : Nat → A.Vector6d) (fuel : Nat) (mb : MultiBody A)
    (t : Int) (point : A.Vector3d) (eng : Jacobian A)
    (h : Jacobian.ofIndex mem fuel mb t point = .ok eng) :
    eng.jac.rows = 6 ∧
    (eng.jac.columns.length : Int) = (eng.jointsPath.map (dofAt mb)).sum ∧
    ∀ calls : List (MultiBody A × MultiBodyConfig A),
      (eng.afterCalls calls).jac.rows = 6 ∧
      ((eng.afterCalls calls).jac.columns.length : Int) = (eng.jointsPath.map (dofAt mb)).sum ∧
      (eng.afterCalls calls).jointsPath = eng.jointsPath := by
  obtain ⟨_, hd, hj, _, _⟩ := ofIndex_ok h
  have hr : eng.jac.rows = 6 := by rw [hj]
  have hc : (eng.jac.columns.length : Int) = (eng.jointsPath.map (dofAt mb)).sum := by
    rw [hj]
    simp only [List.length_map, List.length_range]
    unfold pathDof at hd ⊢
    omega
  refine ⟨hr, hc, fun calls => ?_⟩
  obtain ⟨h1, h2, h3⟩ := afterCalls_dims calls eng
  exact ⟨h2.trans hr, by rw [h3]; exact hc, h1⟩

/-- Instance of C3 on `exampleTree` for the target body 4: a 6 x 5 matrix. -/
theorem C3_matrix_dimensions_witness :
    Jacobian.ofIndex (fun _ => 0) 5 exampleTree 4 0 = .ok ⟨[0, 1, 3, 4], 0, ⟨6, [0, 0, 0, 0, 0]⟩⟩ ∧
    (6 = 6 ∧ ((5 : Nat) : Int) = ([0, 1, 3, 4].map (dofAt exampleTree)).sum ∧
    ∀ calls : List (MultiBody intDeps × MultiBodyConfig intDeps),
      ((⟨[0, 1, 3, 4], 0, ⟨6, [0, 0, 0, 0, 0]⟩⟩ : Jacobian intDeps).afterCalls calls).jac.rows = 6 ∧
      (((⟨[0, 1, 3, 4], 0, ⟨6, [0, 0, 0, 0, 0]⟩⟩ : Jacobian intDeps).afterCalls calls).jac.columns.length : Int)
        = ([0, 1, 3, 4].map (dofAt exampleTree)).sum ∧
      ((⟨[0, 1, 3, 4], 0, ⟨6, [0, 0, 0, 0, 0]⟩⟩ : Jacobian intDeps).afterCalls calls).jointsPath
        = [0, 1, 3, 4]) :=
  ⟨rfl, C3_matrix_dimensions (fun _ => 0) 5 exampleTree 4 0 ⟨[0, 1, 3, 4], 0, ⟨6, [0, 0, 0, 0, 0]⟩⟩ rfl⟩


/-! ## Sub-chain extraction -/

theorem indexMinusOne_eq (n : Nat) (h : n ≤ 2 ^ 31) : indexMinusOne n = (n : Int) - 1 := by
  unfold indexMinusOne wrapInt
  omega

theorem staticCastInt_eq (n : Nat) (h : n < 2 ^ 31) : staticCastInt n = (n : Int) := by
  unfold staticCastInt wrapInt
  omega

theorem getElem?_toNat_of_vecAt {α : Type} {v : List α} {i : Int} {x : α}
    (h : vecAt v i = .ok x) : v[i.toNat]? = some x :=
  ((vecAt_ok_iff v i x).1 h).2

theorem map_range_shift (g : Nat → Int) (acc : List Int) (index k : Nat) :
    (acc ++ [g index]) ++ (List.range k).map (fun n => g (index + 1 + n))
      = acc ++ (List.range (k + 1)).map (fun n => g (index + n)) := by
  rw [List.range_succ_eq_map, List.map_cons, List.map_map, List.append_assoc]
  congr 1
  simp only [List.singleton_append, Nat.add_zero]
  congr 1
  apply List.map_congr_left
  intro n _
  simp only [Function.comp]
  congr 1
  omega

/-- The loop of `subMultiBody` on in-range indices appends, for each remaining path
entry, the source elements at that entry and the counters of its position. -/
theorem subMultiBodyLoop_spec {A : Deps} (mb : MultiBody A) :
    ∀ (rest : List Int) (index : Nat) (acc : MultiBody A), ContainsPath mb rest →
      ∃ bs js xfs xts,
        Jacobian.subMultiBodyLoop mb rest index acc = .ok
          { bodies := acc.bodies ++ bs
            joints := acc.joints ++ js
            pred := acc.pred ++ (List.range rest.length).map (fun n => indexMinusOne (index + n))
            succ := acc.succ ++ (List.range rest.length).map (fun n => staticCastInt (index + n))
            parent := acc.parent ++ (List.range rest.length).map (fun n => indexMinusOne (index + n))
            Xfrom := acc.Xfrom ++ xfs
            Xto := acc.Xto ++ xts } ∧
        bs.map some = rest.map (fun i => mb.bodies[i.toNat]?) ∧
        js.map some = rest.map (fun i => mb.joints[i.toNat]?) ∧
        xfs.map some = rest.map (fun i => mb.Xfrom[i.toNat]?) ∧
        xts.map some = rest.map (fun i => mb.Xto[i.toNat]?) := by
  intro rest
  induction rest with
  | nil =>
    intro index acc _
    exact ⟨[], [], [], [], by simp [Jacobian.subMultiBodyLoop], rfl, rfl, rfl, rfl⟩
  | cons i rest ih =>
    intro index acc hin
    obtain ⟨h0, hb, hj, hf, ht⟩ := hin i (List.mem_cons_self i rest)
    obtain ⟨b, hb⟩ := vecAt_of_lt mb.bodies i h0 hb
    obtain ⟨j, hj⟩ := vecAt_of_lt mb.joints i h0 hj
    obtain ⟨xf, hf⟩ := vecAt_of_lt mb.Xfrom i h0 hf
    obtain ⟨xt, ht⟩ := vecAt_of_lt mb.Xto i h0 ht
    obtain ⟨bs, js, xfs, xts, hr, h1, h2, h3, h4⟩ :=
      ih (index + 1)
        { bodies := acc.bodies ++ [b]
          joints := acc.joints ++ [j]
          pred := acc.pred ++ [indexMinusOne index]
          succ := acc.succ ++ [staticCastInt index]
          parent := acc.parent ++ [indexMinusOne index]
          Xfrom := acc.Xfrom ++ [xf]
          Xto := acc.Xto ++ [xt] }
        (fun x hx => hin x (List.mem_cons_of_mem i hx))
    refine ⟨b :: bs, j :: js, xf :: xfs, xt :: xts, ?_, ?_, ?_, ?_, ?_⟩
    · rw [Jacobian.subMultiBodyLoop]
      simp only [hb, hj, hf, ht]
      rw [hr]
      simp only [List.length_cons, List.append_assoc, List.singleton_append]
      rw [← map_range_shift indexMinusOne acc.pred index rest.length,
        ← map_range_shift staticCastInt acc.succ index rest.length,
        ← map_range_shift indexMinusOne acc.parent index rest.length]
      simp only [List.append_assoc, List.singleton_append]
    · simp [h1, getElem?_toNat_of_vecAt hb]
    · simp [h2, getElem?_toNat_of_vecAt hj]
    · simp [h3, getElem?_toNat_of_vecAt hf]
    · simp [h4, getElem?_toNat_of_vecAt ht]

theorem subMultiBody_spec {A : Deps} (self : Jacobian A) (mb : MultiBody A)
    (hin : ContainsPath mb self.jointsPath) :
    ∃ bs js xfs xts,
      self.subMultiBody mb = .ok
        { bodies := bs
          joints := js
          pred := (List.range self.jointsPath.length).map (fun n => indexMinusOne n)
          succ := (List.range self.jointsPath.length).map (fun n => staticCastInt n)
          parent := (List.range self.jointsPath.length).map (fun n => indexMinusOne n)
          Xfrom := xfs
          Xto := xts } ∧
      bs.map some = self.jointsPath.map (fun i => mb.bodies[i.toNat]?) ∧
      js.map some = self.jointsPath.map (fun i => mb.joints[i.toNat]?) ∧
      xfs.map some = self.jointsPath.map (fun i => mb.Xfrom[i.toNat]?) ∧
      xts.map some = self.jointsPath.map (fun i => mb.Xto[i.toNat]?) := by
  obtain ⟨bs, js, xfs, xts, hr, h⟩ :=
    subMultiBodyLoop_spec mb self.jointsPath 0 ⟨[], [], [], [], [], [], []⟩ hin
  refine ⟨bs, js, xfs, xts, ?_, h⟩
  unfold Jacobian.subMultiBody
  rw [hr]
  simp

theorem map_range_congr {f g : Nat → Int} (k : Nat) (h : ∀ n, n < k → f n = g n) :
    (List.range k).map f = (List.range k).map g :=
  List.map_congr_left (fun n hn => h n (List.mem_range.1 hn))

/-- C4: for a path of length `k` (at most `2^31`, the number of non-negative `int`
values) whose indices lie in the source topology, `subMultiBody` returns a
topology with `k` bodies and `k` joints whose parent array is `-1, 0, ..., k-2`,
whose successor array is `0, 1, ..., k-1` and whose predecessor array is
`-1, 0, ..., k-2`; the value stored for `index - 1` at index 0 is `-1`. -/
theorem C4_subMultiBody_linear_chain {A : Deps} (self : Jacobian A) (mb : MultiBody A)
    (hin : ContainsPath mb self.jointsPath) (hk : self.jointsPath.length ≤ 2 ^ 31) :
    ∃ r, self.subMultiBody mb = .ok r ∧
      r.bodies.length = self.jointsPath.length ∧
      r.joints.length = self.jointsPath.length ∧
      r.parent = (List.range self.jointsPath.length).map (fun n : Nat => (n : Int) - 1) ∧
      r.succ = (List.range self.jointsPath.length).map (fun n : Nat => (n : Int)) ∧
      r.pred = (List.range self.jointsPath.length).map (fun n : Nat => (n : Int) - 1) ∧
      indexMinusOne 0 = -1 := by
  obtain ⟨bs, js, xfs, xts, hr, h1, h2, _, _⟩ := subMultiBody_spec self mb hin
  refine ⟨_, hr, ?_, ?_, ?_, ?_, ?_, by decide⟩
  · simpa using congrArg List.length h1
  · simpa using congrArg List.length h2
  · dsimp only
    exact map_range_congr self.jointsPath.length (fun n hn => indexMinusOne_eq n (by omega))
  · dsimp only
    exact map_range_congr self.jointsPath.length (fun n hn => staticCastInt_eq n (by omega))
  · dsimp only
    exact map_range_congr self.jointsPath.length (fun n hn => indexMinusOne_eq n (by omega))

/-- Instance of C4 for the path `0, 1, 3, 4` in `exampleTree`. -/
theorem C4_subMultiBody_linear_chain_witness :
    ∃ r, exampleEngine.subMultiBody exampleTree = .ok r ∧
      r.bodies.length = 4 ∧ r.joints.length = 4 ∧
      r.parent = (List.range 4).map (fun n : Nat => (n : Int) - 1) ∧
      r.succ = (List.range 4).map (fun n : Nat => (n : Int)) ∧
      r.pred = (List.range 4).map (fun n : Nat => (n : Int) - 1) ∧
      indexMinusOne 0 = -1 :=
  C4_subMultiBody_linear_chain exampleEngine exampleTree (by unfold ContainsPath; decide) (by decide)

/-- C5: for a path whose indices lie in the source topology, `subMultiBody` returns
a topology whose bodies, joints, `transformFrom` and `transformTo` entries are,
position by position in path order, the entries of the source topology at the
path indices. -/
theorem C5_subMultiBody_copies {A : Deps} (self : Jacobian A) (mb : MultiBody A)
    (hin : ContainsPath mb self.jointsPath) :
    ∃ r, self.subMultiBody mb = .ok r ∧
      r.bodies.map some = self.jointsPath.map (fun i => mb.bodies[i.toNat]?) ∧
      r.joints.map some = self.jointsPath.map (fun i => mb.joints[i.toNat]?) ∧
      r.Xfrom.map some = self.jointsPath.map (fun i => mb.Xfrom[i.toNat]?) ∧
      r.Xto.map some = self.jointsPath.map (fun i => mb.Xto[i.toNat]?) := by
  obtain ⟨bs, js, xfs, xts, hr, h1, h2, h3, h4⟩ := subMultiBody_spec self mb hin
  exact ⟨_, hr, h1, h2, h3, h4⟩

/-- Instance of C5 for the path `0, 1, 3, 4` in `exampleTree`. -/
theorem C5_subMultiBody_copies_witness :
    ∃ r, exampleEngine.subMultiBody exampleTree = .ok r ∧
      r.bodies.map some = [0, 1, 3, 4].map (fun i : Int => exampleTree.bodies[i.toNat]?) ∧
      r.joints.map some = [0, 1, 3, 4].map (fun i : Int => exampleTree.joints[i.toNat]?) ∧
      r.Xfrom.map some = [0, 1, 3, 4].map (fun i : Int => exampleTree.Xfrom[i.toNat]?) ∧
      r.Xto.map some = [0, 1, 3, 4].map (fun i : Int => exampleTree.Xto[i.toNat]?) :=
  C5_subMultiBody_copies exampleEngine exampleTree (by unfold ContainsPath; decide)


/-! ## The validated entry points -/

theorem foldl_max_spec (xs : List Int) :
    ∀ x : Int,
      (xs.foldl (fun largest y => if largest < y then y else largest) x = x ∨
        xs.foldl (fun largest y => if largest < y then y else largest) x ∈ xs) ∧
      x ≤ xs.foldl (fun largest y => if largest < y then y else largest) x ∧
      ∀ y ∈ xs, y ≤ xs.foldl (fun largest y => if largest < y then y else largest) x := by
  induction xs with
  | nil => intro x; simp
  | cons a xs ih =>
    intro x
    simp only [List.foldl_cons]
    obtain ⟨h1, h2, h3⟩ := ih (if x < a then a else x)
    refine ⟨?_, ?_, ?_⟩
    · rcases h1 with h1 | h1
      · rw [h1]
        by_cases hxa : x < a
        · simp [hxa]
        · simp [hxa]
      · exact Or.inr (List.mem_cons_of_mem a h1)
    · by_cases hxa : x < a
      · simp only [hxa, if_true] at h2 ⊢
        omega
      · simpa [hxa] using h2
    · intro y hy
      rcases List.mem_cons.1 hy with rfl | hy
      · by_cases hxa : x < y
        · simpa [hxa] using h2
        · simp only [hxa, if_false] at h2 ⊢
          omega
      · exact h3 y hy

/-- On a list that has a greatest element `m`, `maxElement` returns `m`. -/
theorem maxElement_eq {l : List Int} {m : Int} (hm : m ∈ l) (hmax : ∀ x ∈ l, x ≤ m) :
    maxElement l = .ok m := by
  cases l with
  | nil => simp at hm
  | cons x xs =>
    unfold maxElement
    obtain ⟨h1, h2, h3⟩ := foldl_max_spec xs x
    have hmem : xs.foldl (fun largest y => if largest < y then y else largest) x ∈ x :: xs := by
      rcases h1 with h1 | h1
      · rw [h1]; exact List.mem_cons_self x xs
      · exact List.mem_cons_of_mem x h1
    have hle1 := hmax _ hmem
    have hle2 : m ≤ xs.foldl (fun largest y => if largest < y then y else largest) x := by
      rcases List.mem_cons.1 hm with rfl | hm
      · exact h2
      · exact h3 m hm
    exact congrArg Except.ok (le_antisymm hle1 hle2)

theorem blockAt_error {A : Deps} {path : List Int} {mb : MultiBody A} {mbc : MultiBodyConfig A}
    {i : Int} {e : Error} (h : Jacobian.blockAt path mb mbc i = .error e) : e = .invalidRead := by
  unfold Jacobian.blockAt at h
  repeat' split at h
  all_goals first
    | (cases h; done)
    | (cases h; rfl)
    | (cases h; exact vecAt_error (by assumption))

theorem jacobianLoop_error {A : Deps} (path : List Int) (mb : MultiBody A) (mbc : MultiBodyConfig A) :
    ∀ (rest : List Int) (curJ : Int) (jac : MatrixXd A) (e : Error),
      (Jacobian.jacobianLoop path mb mbc rest curJ jac).1 = .error e → e.thrown = false := by
  intro rest
  induction rest with
  | nil => intro curJ jac e h; simp [Jacobian.jacobianLoop] at h
  | cons i rest ih =>
    intro curJ jac e h
    rw [Jacobian.jacobianLoop] at h
    cases hb : Jacobian.blockAt path mb mbc i with
    | error e1 =>
      simp only [hb] at h
      cases h
      rw [blockAt_error hb]
      rfl
    | ok r =>
      obtain ⟨d, B⟩ := r
      simp only [hb] at h
      cases hs : jac.setBlock curJ d B with
      | error e1 =>
        simp only [hs] at h
        cases h
        rw [setBlock_error hs]
        rfl
      | ok jac1 =>
        simp only [hs] at h
        exact ih (curJ + d) jac1 e h

theorem jacobian_result {A : Deps} (self : Jacobian A) (mb : MultiBody A) (mbc : MultiBodyConfig A) :
    (self.jacobian mb mbc).1 =
      match (Jacobian.jacobianLoop self.jointsPath mb mbc self.jointsPath 0 self.jac).1 with
      | .ok () => .ok (Jacobian.jacobianLoop self.jointsPath mb mbc self.jointsPath 0 self.jac).2
      | .error e => .error e := by
  unfold Jacobian.jacobian
  split <;> rename_i h <;> simp [h]

theorem jacobian_not_thrown {A : Deps} (self : Jacobian A) (mb : MultiBody A)
    (mbc : MultiBodyConfig A) (e : Error) (h : (self.jacobian mb mbc).1 = .error e) :
    e.thrown = false := by
  rw [jacobian_result] at h
  split at h
  · cases h
  · rename_i e1 he
    cases h
    exact jacobianLoop_error _ _ _ _ _ _ _ he

theorem subMultiBodyLoop_error {A : Deps} (mb : MultiBody A) :
    ∀ (rest : List Int) (index : Nat) (acc : MultiBody A) (e : Error),
      Jacobian.subMultiBodyLoop mb rest index acc = .error e → e = .invalidRead := by
  intro rest
  induction rest with
  | nil => intro index acc e h; simp [Jacobian.subMultiBodyLoop] at h
  | cons i rest ih =>
    intro index acc e h
    rw [Jacobian.subMultiBodyLoop] at h
    repeat' split at h
    all_goals first
      | (cases h; exact vecAt_error (by assumption))
      | exact ih _ _ _ h


theorem sJacobian_checked {A : Deps} (self : Jacobian A) (mb : MultiBody A) (mbc : MultiBodyConfig A)
    (m : Int) (hm : m ∈ self.jointsPath) (hmax : ∀ x ∈ self.jointsPath, x ≤ m)
    (hn : mb.joints.length < 2 ^ 31)
    (hb : mbc.bodyPosW.length = mb.bodies.length) (hj : mbc.jointConfig.length = mb.joints.length) :
    self.sJacobian mb mbc =
      if (mb.joints.length : Int) ≤ m then (.error .pathMismatch, self) else self.jacobian mb mbc := by
  unfold Jacobian.sJacobian
  simp only [checkMatchBodyPos, checkMatchJointConf, MultiBody.nrBodies, MultiBody.nrJoints, hb, hj,
    if_true, maxElement_eq hm hmax, staticCastInt_eq _ hn, ge_iff_le]

theorem sJacobian_unchecked {A : Deps} (self : Jacobian A) (mb : MultiBody A)
    (mbc : MultiBodyConfig A)
    (h : mbc.bodyPosW.length ≠ mb.bodies.length ∨ mbc.jointConfig.length ≠ mb.joints.length) :
    self.sJacobian mb mbc = (.error .configMismatch, self) := by
  unfold Jacobian.sJacobian
  by_cases hb : mbc.bodyPosW.length = mb.bodies.length
  · have hj : mbc.jointConfig.length ≠ mb.joints.length := by
      rcases h with h | h
      · exact absurd hb h
      · exact h
    simp [checkMatchBodyPos, checkMatchJointConf, MultiBody.nrBodies, MultiBody.nrJoints, hb, hj]
  · simp [checkMatchBodyPos, MultiBody.nrBodies, hb]

/-- C6: for an engine whose path has greatest element `m` and a topology with fewer
than `2^31` joints, `sJacobian` throws exactly when a size validator fails (body
poses against body count, joint configurations against joint count) or the joint
count is at most `m`; when the validators pass and the joint count is at most
`m` the error is the path mismatch; when nothing fails the call is the call of
`jacobian` on the same arguments. -/
theorem C6_sJacobian_raises_iff {A : Deps} (self : Jacobian A) (mb : MultiBody A)
    (mbc : MultiBodyConfig A) (m : Int)
    (hm : m ∈ self.jointsPath) (hmax : ∀ x ∈ self.jointsPath, x ≤ m)
    (hn : mb.joints.length < 2 ^ 31) :
    ((∃ e, (self.sJacobian mb mbc).1 = .error e ∧ e.thrown = true) ↔
      (mbc.bodyPosW.length ≠ mb.bodies.length ∨ mbc.jointConfig.length ≠ mb.joints.length ∨
        (mb.joints.length : Int) ≤ m)) ∧
    (mbc.bodyPosW.length = mb.bodies.length → mbc.jointConfig.length = mb.joints.length →
      (mb.joints.length : Int) ≤ m → (self.sJacobian mb mbc).1 = .error .pathMismatch) ∧
    (mbc.bodyPosW.length = mb.bodies.length → mbc.jointConfig.length = mb.joints.length →
      m < (mb.joints.length : Int) → self.sJacobian mb mbc = self.jacobian mb mbc) := by
  refine ⟨⟨?_, ?_⟩, ?_, ?_⟩
  · rintro ⟨e, he, ht⟩
    by_cases hb : mbc.bodyPosW.length = mb.bodies.length
    · by_cases hj : mbc.jointConfig.length = mb.joints.length
      · by_cases hle : (mb.joints.length : Int) ≤ m
        · exact Or.inr (Or.inr hle)
        · rw [sJacobian_checked self mb mbc m hm hmax hn hb hj, if_neg hle] at he
          have := jacobian_not_thrown self mb mbc e he
          rw [this] at ht
          cases ht
      · exact Or.inr (Or.inl hj)
    · exact Or.inl hb
  · intro h
    by_cases hb : mbc.bodyPosW.length = mb.bodies.length
    · by_cases hj : mbc.jointConfig.length = mb.joints.length
      · have hle : (mb.joints.length : Int) ≤ m := by
          rcases h with h | h | h
          · exact absurd hb h
          · exact absurd hj h
          · exact h
        rw [sJacobian_checked self mb mbc m hm hmax hn hb hj, if_pos hle]
        exact ⟨.pathMismatch, rfl, rfl⟩
      · rw [sJacobian_unchecked self mb mbc (Or.inr hj)]
        exact ⟨.configMismatch, rfl, rfl⟩
    · rw [sJacobian_unchecked self mb mbc (Or.inl hb)]
      exact ⟨.configMismatch, rfl, rfl⟩
  · intro hb hj hle
    rw [sJacobian_checked self mb mbc m hm hmax hn hb hj, if_pos hle]
  · intro hb hj hlt
    rw [sJacobian_checked self mb mbc m hm hmax hn hb hj, if_neg (by omega)]

/-- Instance of C6: the engine of a five-joint tree called with the tree truncated to three joints. -/
theorem C6_sJacobian_raises_iff_witness :
    ((∃ e, (exampleEngine.sJacobian truncatedTree truncatedConfig).1 = .error e ∧ e.thrown = true) ↔
      (truncatedConfig.bodyPosW.length ≠ truncatedTree.bodies.length ∨
        truncatedConfig.jointConfig.length ≠ truncatedTree.joints.length ∨
        (truncatedTree.joints.length : Int) ≤ 4)) ∧
    (truncatedConfig.bodyPosW.length = truncatedTree.bodies.length →
      truncatedConfig.jointConfig.length = truncatedTree.joints.length →
      (truncatedTree.joints.length : Int) ≤ 4 →
      (exampleEngine.sJacobian truncatedTree truncatedConfig).1 = .error .pathMismatch) ∧
    (truncatedConfig.bodyPosW.length = truncatedTree.bodies.length →
      truncatedConfig.jointConfig.length = truncatedTree.joints.length →
      4 < (truncatedTree.joints.length : Int) →
      exampleEngine.sJacobian truncatedTree truncatedConfig
        = exampleEngine.jacobian truncatedTree truncatedConfig) :=
  C6_sJacobian_raises_iff exampleEngine truncatedTree truncatedConfig 4
    (by decide) (by decide) (by decide)

/-- C7: whenever `sJacobian` throws (configuration-size mismatch or path mismatch),
the object afterwards, that is its matrix, its path and its point, is the object
before the call. -/
theorem C7_sJacobian_failure_keeps_state {A : Deps} (self : Jacobian A) (mb : MultiBody A)
    (mbc : MultiBodyConfig A) (e : Error)
    (h : (self.sJacobian mb mbc).1 = .error e) (he : e.thrown = true) :
    (self.sJacobian mb mbc).2 = self := by
  by_cases hc : mbc.bodyPosW.length = mb.bodies.length ∧ mbc.jointConfig.length = mb.joints.length
  · unfold Jacobian.sJacobian at h ⊢
    simp only [checkMatchBodyPos, checkMatchJointConf, MultiBody.nrBodies, MultiBody.nrJoints,
      hc.1, hc.2, if_true] at h ⊢
    cases hmx : maxElement self.jointsPath with
    | error e1 => simp only [hmx]
    | ok m =>
      simp only [hmx] at h ⊢
      by_cases hge : m ≥ staticCastInt mb.joints.length
      · simp only [hge, if_true]
      · simp only [hge, if_false] at h
        have := jacobian_not_thrown self mb mbc e h
        rw [this] at he
        cases he
  · rw [sJacobian_unchecked self mb mbc (not_and_or.1 hc)]

/-- Instance of C7: the call on the truncated tree throws the path mismatch and changes nothing. -/
theorem C7_sJacobian_failure_keeps_state_witness :
    (exampleEngine.sJacobian truncatedTree truncatedConfig).1 = .error .pathMismatch ∧
    Error.pathMismatch.thrown = true ∧
    (exampleEngine.sJacobian truncatedTree truncatedConfig).2 = exampleEngine :=
  ⟨rfl, rfl, C7_sJacobian_failure_keeps_state exampleEngine truncatedTree truncatedConfig
    .pathMismatch rfl rfl⟩

theorem sSubMultiBody_checked {A : Deps} (self : Jacobian A) (mb : MultiBody A)
    (m : Int) (hm : m ∈ self.jointsPath) (hmax : ∀ x ∈ self.jointsPath, x ≤ m)
    (hn : mb.joints.length < 2 ^ 31) :
    self.sSubMultiBody mb =
      if (mb.joints.length : Int) ≤ m then .error .pathMismatch else self.subMultiBody mb := by
  unfold Jacobian.sSubMultiBody
  simp only [MultiBody.nrJoints, maxElement_eq hm hmax, staticCastInt_eq _ hn, ge_iff_le]

/-- C8: for an engine whose path has greatest element `m` and a topology with fewer
than `2^31` joints, `sSubMultiBody` throws exactly when the joint count is at
most `m`, the error is then the path mismatch and there is no result; otherwise
the call returns what `subMultiBody` returns on the same topology. -/
theorem C8_sSubMultiBody_raises_iff {A : Deps} (self : Jacobian A) (mb : MultiBody A) (m : Int)
    (hm : m ∈ self.jointsPath) (hmax : ∀ x ∈ self.jointsPath, x ≤ m)
    (hn : mb.joints.length < 2 ^ 31) :
    ((∃ e, self.sSubMultiBody mb = .error e ∧ e.thrown = true) ↔ (mb.joints.length : Int) ≤ m) ∧
    ((mb.joints.length : Int) ≤ m → self.sSubMultiBody mb = .error .pathMismatch) ∧
    (m < (mb.joints.length : Int) → self.sSubMultiBody mb = self.subMultiBody mb) := by
  rw [sSubMultiBody_checked self mb m hm hmax hn]
  refine ⟨⟨?_, ?_⟩, ?_, ?_⟩
  · rintro ⟨e, he, ht⟩
    by_cases hle : (mb.joints.length : Int) ≤ m
    · exact hle
    · rw [if_neg hle] at he
      have := subMultiBodyLoop_error mb _ _ _ e he
      rw [this] at ht
      cases ht
  · intro hle
    rw [if_pos hle]
    exact ⟨.pathMismatch, rfl, rfl⟩
  · intro hle
    rw [if_pos hle]
  · intro hlt
    rw [if_neg (by omega)]

/-- Instance of C8 for `exampleEngine` and `exampleTree`. -/
theorem C8_sSubMultiBody_raises_iff_witness :
    ((∃ e, exampleEngine.sSubMultiBody exampleTree = .error e ∧ e.thrown = true) ↔
      (exampleTree.joints.length : Int) ≤ 4) ∧
    ((exampleTree.joints.length : Int) ≤ 4 →
      exampleEngine.sSubMultiBody exampleTree = .error .pathMismatch) ∧
    (4 < (exampleTree.joints.length : Int) →
      exampleEngine.sSubMultiBody exampleTree = exampleEngine.subMultiBody exampleTree) :=
  C8_sSubMultiBody_raises_iff exampleEngine exampleTree 4 (by decide) (by decide) (by decide)


/-! ## The computation of the Jacobian -/

theorem blockAt_reads {A : Deps} (path : List Int) (mb : MultiBody A) (mbc : MultiBodyConfig A)
    (hread : ReadsInRange path mb mbc) (i : Int) (hi : i ∈ path) :
    ∃ B j, Jacobian.blockAt path mb mbc i = .ok (dofAt mb i, B) ∧
      specBlock path mb mbc i = some B ∧ vecAt mb.joints i = .ok j ∧
      B.length = (A.motionSubspace j).length := by
  obtain ⟨h0, hj, ht, hc, hw, s, hs, hs0, hs1⟩ := hread i hi
  obtain ⟨j, hj⟩ := vecAt_of_lt mb.joints i h0 hj
  obtain ⟨xt, ht⟩ := vecAt_of_lt mb.Xto i h0 ht
  obtain ⟨xi, hc⟩ := vecAt_of_lt mbc.jointConfig i h0 hc
  obtain ⟨wi, hw⟩ := vecAt_of_lt mbc.bodyPosW i h0 hw
  obtain ⟨ws, hws⟩ := vecAt_of_lt mbc.bodyPosW s hs0 hs1
  have hne : path ≠ [] := List.ne_nil_of_mem hi
  have hlast : path.getLast? = some (path.getLast hne) := List.getLast?_eq_getLast path hne
  obtain ⟨hn0, _, _, _, hn, _⟩ := hread _ (List.getLast_mem hne)
  obtain ⟨wn, hwn⟩ := vecAt_of_lt mbc.bodyPosW _ hn0 hn
  refine ⟨(A.motionSubspace j).map
    (A.matrixMul (A.mul (A.mul (A.mul (A.inv (A.rotationOnly ws)) (A.mul wn (A.inv wi))) xt) xi)),
    j, ?_, ?_, hj, ?_⟩
  · unfold Jacobian.blockAt
    simp only [hj, hs, ht, hc, hw, hws, hlast, hwn, dofAt]
  · unfold specBlock
    simp only [getElem?_toNat_of_vecAt hj, getElem?_toNat_of_vecAt hs, getElem?_toNat_of_vecAt ht,
      getElem?_toNat_of_vecAt hc, getElem?_toNat_of_vecAt hw, getElem?_toNat_of_vecAt hws, hlast,
      getElem?_toNat_of_vecAt hwn, Option.pure_def, Option.bind_eq_bind, Option.some_bind]
  · simp only [List.length_map]

theorem blockAt_ok {A : Deps} (path : List Int) (mb : MultiBody A) (mbc : MultiBodyConfig A)
    (hread : ReadsInRange path mb mbc)
    (hS : ∀ j ∈ mb.joints, ((A.motionSubspace j).length : Int) = A.dof j)
    (i : Int) (hi : i ∈ path) :
    ∃ B, Jacobian.blockAt path mb mbc i = .ok (dofAt mb i, B) ∧
      specBlock path mb mbc i = some B ∧ (B.length : Int) = dofAt mb i := by
  obtain ⟨B, j, h1, h2, hj, hlen⟩ := blockAt_reads path mb mbc hread i hi
  refine ⟨B, h1, h2, ?_⟩
  rw [hlen]
  simp only [dofAt, hj]
  exact hS j (vecAt_ok_mem hj)

theorem pathDof_cons {A : Deps} (mb : MultiBody A) (i : Int) (rest : List Int) :
    pathDof mb (i :: rest) = dofAt mb i + pathDof mb rest := by
  simp [pathDof]

theorem flatten_length_eq_pathDof {A : Deps} (mb : MultiBody A) (f : Int → List A.Vector6d) :
    ∀ l : List Int, (∀ i ∈ l, ((f i).length : Int) = dofAt mb i) →
      (((l.map f).flatten.length : Nat) : Int) = pathDof mb l := by
  intro l
  induction l with
  | nil => intro _; simp [pathDof]
  | cons a l ih =>
    intro h
    have h1 := h a (List.mem_cons_self a l)
    have h2 := ih (fun i hi => h i (List.mem_cons_of_mem a hi))
    rw [pathDof_cons]
    simp only [List.map_cons, List.flatten_cons, List.length_append, Nat.cast_add]
    omega

/-- When every remaining block can be read, has the width of its joint and fits in
the matrix, the loop of `jacobian` ends normally and has overwritten the columns
from `curJ` on with the blocks in order, leaving the others as they were. -/
theorem jacobianLoop_spec {A : Deps} (path : List Int) (mb : MultiBody A) (mbc : MultiBodyConfig A) :
    ∀ (rest : List Int) (curJ : Int) (jac : MatrixXd A),
      (∀ i ∈ rest, ∃ B, Jacobian.blockAt path mb mbc i = .ok (dofAt mb i, B) ∧
        specBlock path mb mbc i = some B ∧ (B.length : Int) = dofAt mb i) →
      0 ≤ curJ → 6 ≤ jac.rows → curJ + pathDof mb rest ≤ (jac.columns.length : Int) →
      Jacobian.jacobianLoop path mb mbc rest curJ jac =
        (.ok (), ⟨jac.rows, jac.columns.take curJ.toNat ++
          (rest.map (fun i => (specBlock path mb mbc i).getD [])).flatten ++
          jac.columns.drop (curJ + pathDof mb rest).toNat⟩) := by
  intro rest
  induction rest with
  | nil =>
    intro curJ jac _ h0 _ hle
    simp only [Jacobian.jacobianLoop, pathDof, List.map_nil, List.sum_nil, add_zero,
      List.flatten_nil, List.append_nil, List.take_append_drop]
  | cons i rest ih =>
    intro curJ jac hb h0 hrows hle
    obtain ⟨B, hB, hsB, hlen⟩ := hb i (List.mem_cons_self i rest)
    have hrest : ∀ x ∈ rest, ∃ B, Jacobian.blockAt path mb mbc x = .ok (dofAt mb x, B) ∧
        specBlock path mb mbc x = some B ∧ (B.length : Int) = dofAt mb x :=
      fun x hx => hb x (List.mem_cons_of_mem i hx)
    have hfl := flatten_length_eq_pathDof mb (fun i => (specBlock path mb mbc i).getD []) rest
      (fun x hx => by
        obtain ⟨B1, _, h2, h3⟩ := hrest x hx
        simp only [h2, Option.getD_some]
        exact h3)
    rw [pathDof_cons] at hle
    have hd0 : 0 ≤ dofAt mb i := by omega
    have hr0 : 0 ≤ pathDof mb rest := by omega
    have hset : jac.setBlock curJ (dofAt mb i) B = .ok
        ⟨jac.rows, jac.columns.take curJ.toNat ++ B ++
          jac.columns.drop (curJ.toNat + (dofAt mb i).toNat)⟩ :=
      (setBlock_ok_iff jac curJ (dofAt mb i) B _).2 ⟨⟨h0, hd0, hrows, by omega, hlen⟩, rfl⟩
    rw [Jacobian.jacobianLoop]
    simp only [hB, hset]
    have hlen1 := (setBlock_dims hset).2
    rw [ih (curJ + dofAt mb i)
      ⟨jac.rows, jac.columns.take curJ.toNat ++ B ++
        jac.columns.drop (curJ.toNat + (dofAt mb i).toNat)⟩
      hrest (by omega) hrows (by rw [hlen1]; omega)]
    have ht1 : (jac.columns.take curJ.toNat).length = curJ.toNat := by
      rw [List.length_take]; omega
    have hBn : B.length = (dofAt mb i).toNat := by omega
    have e1 : (curJ + dofAt mb i).toNat = (jac.columns.take curJ.toNat ++ B).length := by
      rw [List.length_append, ht1]; omega
    have e2 : (curJ + dofAt mb i + pathDof mb rest).toNat
        = (jac.columns.take curJ.toNat ++ B).length + (pathDof mb rest).toNat := by
      rw [List.length_append, ht1]; omega
    have e3 : (curJ + (dofAt mb i + pathDof mb rest)).toNat
        = curJ.toNat + (dofAt mb i).toNat + (pathDof mb rest).toNat := by omega
    simp only [pathDof_cons, List.map_cons, List.flatten_cons, hsB, Option.getD_some]
    rw [e1, List.take_left, e2, List.drop_append, e3]
    simp only [List.append_assoc, List.drop_drop]


theorem flatten_block {α : Type} (f : Int → List α) (path : List Int) (k : Nat) (i : Int)
    (h : path[k]? = some i) :
    ((path.map f).flatten.drop ((path.take k).map f).flatten.length).take (f i).length = f i := by
  obtain ⟨hk, hi⟩ := List.getElem?_eq_some_iff.1 h
  have hsplit : path.map f = (path.take k).map f ++ f i :: (path.drop (k + 1)).map f := by
    rw [← hi, ← List.map_cons f, ← List.drop_eq_getElem_cons hk, ← List.map_append,
      List.take_append_drop]
  rw [hsplit, List.flatten_append, List.flatten_cons, List.drop_left, List.take_left]

/-- On an engine whose matrix has six rows and as many columns as the dofs of the
path joints in `mb`, with all reads in range and motion subspaces of the width
of their joint, `jacobian` returns normally; the matrix returned and kept is the
concatenation, in path order, of the blocks of the path entries. -/
theorem jacobian_spec {A : Deps} (self : Jacobian A) (mb : MultiBody A) (mbc : MultiBodyConfig A)
    (hread : ReadsInRange self.jointsPath mb mbc)
    (hS : ∀ j ∈ mb.joints, ((A.motionSubspace j).length : Int) = A.dof j)
    (hrows : 6 ≤ self.jac.rows)
    (hcols : pathDof mb self.jointsPath = (self.jac.columns.length : Int)) :
    self.jacobian mb mbc =
      (.ok ⟨self.jac.rows, (self.jointsPath.map (fun i => (specBlock self.jointsPath mb mbc i).getD [])).flatten⟩,
        ⟨self.jointsPath, self.point,
          ⟨self.jac.rows, (self.jointsPath.map (fun i => (specBlock self.jointsPath mb mbc i).getD [])).flatten⟩⟩) := by
  have hloop := jacobianLoop_spec self.jointsPath mb mbc self.jointsPath 0 self.jac
    (fun i hi => blockAt_ok self.jointsPath mb mbc hread hS i hi) (le_refl 0) hrows (by omega)
  unfold Jacobian.jacobian
  rw [hloop]
  have hdrop : (0 + pathDof mb self.jointsPath).toNat = self.jac.columns.length := by omega
  simp only [hdrop, Int.toNat_zero, List.take_zero, List.nil_append, List.drop_length,
    List.append_nil]

/-- C1: for an engine built by the constructor from `mb0`, and a topology `mb` and
configuration `mbc` in which the path joints have the dofs they had in `mb0`
(all reads in range, motion subspaces of the width of their joint), `jacobian`
returns normally a matrix `M` with six rows that becomes the owned matrix; `M`
is the concatenation in path order of the blocks of the path entries, and for
the entry `i` at position `k` the columns of `M` from offset
`dof(path[0]) + ... + dof(path[k-1])`, `dof(i)` of them, are the block
`(X_0_i⁻¹ * X_i_N * Xt[i] * X_i).matrix() * S_i` of the specification. -/
theorem C1_jacobian_blocks {A : Deps} (mem : Nat → A.Vector6d) (fuel : Nat) (mb0 : MultiBody A)
    (t : Int) (point : A.Vector3d) (eng : Jacobian A) (mb : MultiBody A) (mbc : MultiBodyConfig A)
    (hbuilt : Jacobian.ofIndex mem fuel mb0 t point = .ok eng)
    (hdof : ∀ i ∈ eng.jointsPath, dofAt mb i = dofAt mb0 i)
    (hread : ReadsInRange eng.jointsPath mb mbc)
    (hS : ∀ j ∈ mb.joints, ((A.motionSubspace j).length : Int) = A.dof j) :
    ∃ M : MatrixXd A,
      eng.jacobian mb mbc = (.ok M, ⟨eng.jointsPath, eng.point, M⟩) ∧
      M.rows = 6 ∧
      M.columns = (eng.jointsPath.map (fun i => (specBlock eng.jointsPath mb mbc i).getD [])).flatten ∧
      ∀ (k : Nat) (i : Int), eng.jointsPath[k]? = some i →
        ∃ B, specBlock eng.jointsPath mb mbc i = some B ∧
          (B.length : Int) = dofAt mb i ∧
          (M.columns.drop (pathDof mb (eng.jointsPath.take k)).toNat).take (dofAt mb i).toNat = B := by
  obtain ⟨_, hd, hj, _, _⟩ := ofIndex_ok hbuilt
  have hsame : pathDof mb eng.jointsPath = pathDof mb0 eng.jointsPath := by
    unfold pathDof
    rw [List.map_congr_left hdof]
  have hrows : eng.jac.rows = 6 := by rw [hj]
  have hcols : pathDof mb eng.jointsPath = (eng.jac.columns.length : Int) := by
    rw [hsame, hj]
    simp only [List.length_map, List.length_range]
    omega
  refine ⟨_, jacobian_spec eng mb mbc hread hS (by omega) hcols, hrows, rfl, ?_⟩
  intro k i hk
  have hi : i ∈ eng.jointsPath := List.getElem?_mem hk
  obtain ⟨B, _, hsB, hlen⟩ := blockAt_ok eng.jointsPath mb mbc hread hS i hi
  refine ⟨B, hsB, hlen, ?_⟩
  have hoff := flatten_length_eq_pathDof mb (fun i => (specBlock eng.jointsPath mb mbc i).getD [])
    (eng.jointsPath.take k) (fun x hx => by
      obtain ⟨B1, _, h2, h3⟩ := blockAt_ok eng.jointsPath mb mbc hread hS x (List.mem_of_mem_take hx)
      simp only [h2, Option.getD_some]
      exact h3)
  have hblk := flatten_block (fun i => (specBlock eng.jointsPath mb mbc i).getD []) eng.jointsPath k i hk
  simp only [hsB, Option.getD_some] at hblk
  have e1 : (pathDof mb (eng.jointsPath.take k)).toNat
      = ((eng.jointsPath.take k).map (fun i => (specBlock eng.jointsPath mb mbc i).getD [])).flatten.length := by
    omega
  have e2 : (dofAt mb i).toNat = B.length := by omega
  rw [e1, e2]
  exact hblk


/-- All reads of `jacobian` for `exampleEngine` on `exampleTree` and `exampleConfig` are in range. -/
theorem exampleReads : ReadsInRange exampleEngine.jointsPath exampleTree exampleConfig := by
  intro i hi
  simp only [exampleEngine, List.mem_cons, List.mem_singleton, List.not_mem_nil, or_false] at hi
  rcases hi with rfl | rfl | rfl | rfl
  · exact ⟨by decide, by decide, by decide, by decide, by decide, 0, rfl, by decide, by decide⟩
  · exact ⟨by decide, by decide, by decide, by decide, by decide, 1, rfl, by decide, by decide⟩
  · exact ⟨by decide, by decide, by decide, by decide, by decide, 3, rfl, by decide, by decide⟩
  · exact ⟨by decide, by decide, by decide, by decide, by decide, 4, rfl, by decide, by decide⟩

/-- Instance of C1 on `exampleTree`: the engine for body 4 and `exampleConfig`. -/
theorem C1_jacobian_blocks_witness :
    Jacobian.ofIndex (fun _ => 0) 5 exampleTree 4 0 = .ok exampleEngine ∧
    ∃ M : MatrixXd intDeps,
      exampleEngine.jacobian exampleTree exampleConfig
        = (.ok M, ⟨exampleEngine.jointsPath, exampleEngine.point, M⟩) ∧
      M.rows = 6 ∧
      M.columns = (exampleEngine.jointsPath.map
        (fun i => (specBlock exampleEngine.jointsPath exampleTree exampleConfig i).getD [])).flatten ∧
      ∀ (k : Nat) (i : Int), exampleEngine.jointsPath[k]? = some i →
        ∃ B, specBlock exampleEngine.jointsPath exampleTree exampleConfig i = some B ∧
          (B.length : Int) = dofAt exampleTree i ∧
          (M.columns.drop (pathDof exampleTree (exampleEngine.jointsPath.take k)).toNat).take
            (dofAt exampleTree i).toNat = B :=
  ⟨rfl, C1_jacobian_blocks (fun _ => 0) 5 exampleTree 4 0 exampleEngine exampleTree exampleConfig
    rfl (fun _ _ => rfl) exampleReads (by decide)⟩

/-- The value of `jacobian` for `exampleEngine` on `exampleTree` and `exampleConfig`. -/
theorem exampleEngine_jacobian :
    exampleEngine.jacobian exampleTree exampleConfig
    = (.ok ⟨6, [240, -1050, -3800, -3895, -3990]⟩,
        ⟨[0, 1, 3, 4], 0, ⟨6, [240, -1050, -3800, -3895, -3990]⟩⟩) := rfl


/-! ## Partial results and index validity of the validated computation -/

theorem maxElement_ok {l : List Int} {m : Int} (h : maxElement l = .ok m) :
    m ∈ l ∧ ∀ x ∈ l, x ≤ m := by
  cases l with
  | nil => simp [maxElement] at h
  | cons x xs =>
    unfold maxElement at h
    obtain ⟨h1, h2, h3⟩ := foldl_max_spec xs x
    cases h
    refine ⟨?_, ?_⟩
    · rcases h1 with h1 | h1
      · rw [h1]; exact List.mem_cons_self x xs
      · exact List.mem_cons_of_mem x h1
    · intro y hy
      rcases List.mem_cons.1 hy with rfl | hy
      · exact h2
      · exact h3 y hy

theorem maxElement_of_ne_nil {l : List Int} (h : l ≠ []) : ∃ m, maxElement l = .ok m := by
  cases l with
  | nil => exact absurd rfl h
  | cons x xs => exact ⟨_, rfl⟩

theorem staticCastInt_le (n : Nat) : staticCastInt n ≤ (n : Int) := by
  unfold staticCastInt wrapInt
  omega

/-- In a consistent topology whose sizes match the configuration, indices between 0
and the joint count can be read wherever `jacobian` reads them. -/
theorem reads_of_consistent {A : Deps} (path : List Int) (mb : MultiBody A) (mbc : MultiBodyConfig A)
    (hwf : mb.Consistent)
    (hb : mbc.bodyPosW.length = mb.bodies.length) (hj : mbc.jointConfig.length = mb.joints.length)
    (hpath : ∀ i ∈ path, 0 ≤ i ∧ i < (mb.joints.length : Int)) :
    ReadsInRange path mb mbc := by
  obtain ⟨h1, h2, _, h4, h5⟩ := hwf
  intro i hi
  obtain ⟨h0, hlt⟩ := hpath i hi
  obtain ⟨s, hs⟩ := vecAt_of_lt mb.succ i h0 (by omega)
  have hsr := h5 s (vecAt_ok_mem hs)
  exact ⟨h0, hlt, by omega, by omega, by omega, s, hs, hsr.1, by omega⟩

/-- C9 fails as stated: the engine built on `exampleTree` for body 4 (five columns),
called through `sJacobian` with `widerTree`, which has the same sizes and passes
all three checks, writes the blocks of joints 0, 1 and 3 and then faults on the
block of joint 4, which would occupy columns 2 to 7 of a matrix with 5 columns;
the owned matrix is left partly overwritten. -/
theorem C9_counterexample :
    Jacobian.ofIndex (fun _ => 0) 5 exampleTree 4 0 = .ok exampleEngine ∧
    exampleEngine.sJacobian widerTree exampleConfig
      = (.error .invalidBlock, ⟨[0, 1, 3, 4], 0, ⟨6, [240, -1050, 0, 0, 0]⟩⟩) ∧
    ¬ NoPartialResult exampleEngine widerTree exampleConfig := by
  have e : exampleEngine.sJacobian widerTree exampleConfig
      = (.error .invalidBlock, ⟨[0, 1, 3, 4], 0, ⟨6, [240, -1050, 0, 0, 0]⟩⟩) := rfl
  refine ⟨rfl, e, ?_⟩
  rintro (⟨_, h2⟩ | ⟨M, hM, _⟩)
  · rw [e] at h2
    have h3 := congrArg (fun x : Jacobian intDeps => x.jac.columns) h2
    simp [exampleEngine] at h3
  · rw [e] at hM
    cases hM

/-- C9 (amended): for an engine built by the constructor from `mb0` for a body
`t ≠ -1`, a consistent topology `mb` in which the path joints have the dofs they
had in `mb0` and motion subspaces as wide as their joint, and any configuration,
`sJacobian` has no partial result: either a check throws and the object is
unchanged, or the call returns normally the six-row matrix made of the blocks of
all path entries, which fills the owned matrix exactly. -/
theorem C9_no_partial_result_same_dofs {A : Deps} (mem : Nat → A.Vector6d) (fuel : Nat)
    (mb0 : MultiBody A) (t : Int) (point : A.Vector3d) (eng : Jacobian A) (mb : MultiBody A)
    (mbc : MultiBodyConfig A)
    (hbuilt : Jacobian.ofIndex mem fuel mb0 t point = .ok eng) (ht : t ≠ -1)
    (hdof : ∀ i ∈ eng.jointsPath, dofAt mb i = dofAt mb0 i)
    (hwf : mb.Consistent)
    (hS : ∀ j ∈ mb.joints, ((A.motionSubspace j).length : Int) = A.dof j) :
    NoPartialResult eng mb mbc := by
  obtain ⟨hc, hd, hj, _, _⟩ := ofIndex_ok hbuilt
  have hne : eng.jointsPath ≠ [] := by
    intro h0
    have := chain_last hc ht
    rw [h0] at this
    simp at this
  obtain ⟨m, hmx⟩ := maxElement_of_ne_nil hne
  obtain ⟨hm, hmax⟩ := maxElement_ok hmx
  by_cases hsz : mbc.bodyPosW.length = mb.bodies.length ∧ mbc.jointConfig.length = mb.joints.length
  · by_cases hge : m ≥ staticCastInt mb.joints.length
    · left
      have e : eng.sJacobian mb mbc = (.error .pathMismatch, eng) := by
        unfold Jacobian.sJacobian
        simp only [checkMatchBodyPos, checkMatchJointConf, MultiBody.nrBodies, MultiBody.nrJoints,
          hsz.1, hsz.2, if_true, hmx, hge]
      rw [e]
      exact ⟨⟨.pathMismatch, rfl, rfl⟩, rfl⟩
    · right
      have e : eng.sJacobian mb mbc = eng.jacobian mb mbc := by
        unfold Jacobian.sJacobian
        simp only [checkMatchBodyPos, checkMatchJointConf, MultiBody.nrBodies, MultiBody.nrJoints,
          hsz.1, hsz.2, if_true, hmx, hge, if_false]
      have hle := staticCastInt_le mb.joints.length
      have hread : ReadsInRange eng.jointsPath mb mbc :=
        reads_of_consistent eng.jointsPath mb mbc hwf hsz.1 hsz.2
          (fun i hi => ⟨(chain_nonneg hc i hi).1, by have := hmax i hi; omega⟩)
      have hsame : pathDof mb eng.jointsPath = pathDof mb0 eng.jointsPath := by
        unfold pathDof
        rw [List.map_congr_left hdof]
      have hrows : eng.jac.rows = 6 := by rw [hj]
      have hcols : pathDof mb eng.jointsPath = (eng.jac.columns.length : Int) := by
        rw [hsame, hj]
        simp only [List.length_map, List.length_range]
        omega
      have hfl := flatten_length_eq_pathDof mb
        (fun i => (specBlock eng.jointsPath mb mbc i).getD []) eng.jointsPath (fun x hx => by
          obtain ⟨B1, _, h2, h3⟩ := blockAt_ok eng.jointsPath mb mbc hread hS x hx
          simp only [h2, Option.getD_some]
          exact h3)
      refine ⟨_, e.trans (jacobian_spec eng mb mbc hread hS (by omega) hcols), hrows, ?_, rfl⟩
      simp only
      omega
  · left
    rw [sJacobian_unchecked eng mb mbc (not_and_or.1 hsz)]
    exact ⟨⟨.configMismatch, rfl, rfl⟩, rfl⟩


/-- The topology `exampleTree` is consistent. -/
theorem exampleTree_consistent : exampleTree.Consistent := by
  unfold MultiBody.Consistent
  decide

/-- Instance of the amended C9 for `exampleEngine` on the tree it was built from. -/
theorem C9_no_partial_result_same_dofs_witness :
    Jacobian.ofIndex (fun _ => 0) 5 exampleTree 4 0 = .ok exampleEngine ∧
    NoPartialResult exampleEngine exampleTree exampleConfig :=
  ⟨rfl, C9_no_partial_result_same_dofs (fun _ => 0) 5 exampleTree 4 0 exampleEngine exampleTree
    exampleConfig rfl (by decide) (fun _ _ => rfl) exampleTree_consistent (by decide)⟩

theorem jacobianLoop_error_of_reads {A : Deps} (path : List Int) (mb : MultiBody A)
    (mbc : MultiBodyConfig A) :
    ∀ (rest : List Int) (curJ : Int) (jac : MatrixXd A) (e : Error),
      (∀ i ∈ rest, ∃ r, Jacobian.blockAt path mb mbc i = .ok r) →
      (Jacobian.jacobianLoop path mb mbc rest curJ jac).1 = .error e → e = .invalidBlock := by
  intro rest
  induction rest with
  | nil => intro curJ jac e _ h; simp [Jacobian.jacobianLoop] at h
  | cons i rest ih =>
    intro curJ jac e hb h
    obtain ⟨r, hr⟩ := hb i (List.mem_cons_self i rest)
    obtain ⟨d, B⟩ := r
    rw [Jacobian.jacobianLoop] at h
    simp only [hr] at h
    cases hs : jac.setBlock curJ d B with
    | error e1 =>
      simp only [hs] at h
      cases h
      exact setBlock_error hs
    | ok jac1 =>
      simp only [hs] at h
      exact ih (curJ + d) jac1 e (fun x hx => hb x (List.mem_cons_of_mem i hx)) h

/-- C10 (amended): for an engine built by the constructor and a consistent topology
(body, successor and fixed-transform vectors as long as the joint vector,
successors that are body indices) that the maximum-index check accepts, every
path entry `i` satisfies `0 ≤ i < joint count` and is an index of the body,
joint, successor and fixed-transform vectors of that topology; `sSubMultiBody`
then returns a topology, and `sJacobian`, with any configuration, never faults
on a read outside a vector. -/
theorem C10_path_indices_valid {A : Deps} (mem : Nat → A.Vector6d) (fuel : Nat)
    (mb0 : MultiBody A) (t : Int) (point : A.Vector3d) (eng : Jacobian A) (mb : MultiBody A) (m : Int)
    (hbuilt : Jacobian.ofIndex mem fuel mb0 t point = .ok eng)
    (hmx : maxElement eng.jointsPath = .ok m)
    (haccept : ¬ m ≥ staticCastInt mb.nrJoints)
    (hwf : mb.Consistent) :
    (∀ i ∈ eng.jointsPath, 0 ≤ i ∧ i < (mb.joints.length : Int) ∧ i < (mb.bodies.length : Int) ∧
      i < (mb.succ.length : Int) ∧ i < (mb.Xfrom.length : Int) ∧ i < (mb.Xto.length : Int)) ∧
    (∃ r, eng.sSubMultiBody mb = .ok r) ∧
    ∀ mbc : MultiBodyConfig A, (eng.sJacobian mb mbc).1 ≠ .error .invalidRead := by
  obtain ⟨hc, _, _, _, _⟩ := ofIndex_ok hbuilt
  obtain ⟨_, hmax⟩ := maxElement_ok hmx
  have hle := staticCastInt_le mb.joints.length
  unfold MultiBody.nrJoints at haccept
  have hpath : ∀ i ∈ eng.jointsPath, 0 ≤ i ∧ i < (mb.joints.length : Int) :=
    fun i hi => ⟨(chain_nonneg hc i hi).1, by have := hmax i hi; omega⟩
  obtain ⟨h1, h2, h3, h4, h5⟩ := hwf
  have hall : ∀ i ∈ eng.jointsPath, 0 ≤ i ∧ i < (mb.joints.length : Int) ∧
      i < (mb.bodies.length : Int) ∧ i < (mb.succ.length : Int) ∧ i < (mb.Xfrom.length : Int) ∧
      i < (mb.Xto.length : Int) := by
    intro i hi
    obtain ⟨h0, hlt⟩ := hpath i hi
    omega
  refine ⟨hall, ?_, ?_⟩
  · have hin : ContainsPath mb eng.jointsPath := by
      intro i hi
      obtain ⟨a, b, c, _, d, e⟩ := hall i hi
      exact ⟨a, c, b, d, e⟩
    obtain ⟨bs, js, xfs, xts, hr, _⟩ := subMultiBody_spec eng mb hin
    have e : eng.sSubMultiBody mb = eng.subMultiBody mb := by
      unfold Jacobian.sSubMultiBody
      simp only [hmx, MultiBody.nrJoints, haccept, if_false]
    exact ⟨_, e.trans hr⟩
  · intro mbc hcontra
    by_cases hsz : mbc.bodyPosW.length = mb.bodies.length ∧ mbc.jointConfig.length = mb.joints.length
    · have e : eng.sJacobian mb mbc = eng.jacobian mb mbc := by
        unfold Jacobian.sJacobian
        simp only [checkMatchBodyPos, checkMatchJointConf, MultiBody.nrBodies, MultiBody.nrJoints,
          hsz.1, hsz.2, if_true, hmx, haccept, if_false]
      have hread : ReadsInRange eng.jointsPath mb mbc :=
        reads_of_consistent eng.jointsPath mb mbc ⟨h1, h2, h3, h4, h5⟩ hsz.1 hsz.2 hpath
      rw [e, jacobian_result] at hcontra
      split at hcontra
      · cases hcontra
      · rename_i e1 he
        cases hcontra
        have := jacobianLoop_error_of_reads eng.jointsPath mb mbc eng.jointsPath 0 eng.jac _
          (fun i hi => by
            obtain ⟨B, j, hB, _⟩ := blockAt_reads eng.jointsPath mb mbc hread i hi
            exact ⟨_, hB⟩) he
        cases this
    · rw [sJacobian_unchecked eng mb mbc (not_and_or.1 hsz)] at hcontra
      cases hcontra

/-- The maximum-index check accepts `widerTree` for a path with greatest index 4. -/
theorem widerTree_accepts : ¬ (4 : Int) ≥ staticCastInt widerTree.nrJoints := by
  have h : staticCastInt widerTree.nrJoints = 5 := by decide
  rw [h]
  decide

/-- Instance of the amended C10: the engine built on `exampleTree`, used with
`widerTree`. -/
theorem C10_path_indices_valid_witness :
    Jacobian.ofIndex (fun _ => 0) 5 exampleTree 4 0 = .ok exampleEngine ∧
    (∀ i ∈ exampleEngine.jointsPath, 0 ≤ i ∧ i < (widerTree.joints.length : Int) ∧
      i < (widerTree.bodies.length : Int) ∧ i < (widerTree.succ.length : Int) ∧
      i < (widerTree.Xfrom.length : Int) ∧ i < (widerTree.Xto.length : Int)) ∧
    (∃ r, exampleEngine.sSubMultiBody widerTree = .ok r) ∧
    ∀ mbc : MultiBodyConfig intDeps, (exampleEngine.sJacobian widerTree mbc).1 ≠ .error .invalidRead :=
  ⟨rfl, C10_path_indices_valid (fun _ => 0) 5 exampleTree 4 0 exampleEngine widerTree 4 rfl rfl
    widerTree_accepts (by unfold MultiBody.Consistent; decide)⟩

/-! ## Root targets, non-empty paths, termination and order of the path -/

theorem walk_unique {A : Deps} (mb : MultiBody A) (f1 f2 : Nat) (i : Int) (path : List Int)
    (dof : Int) (r1 r2 : List Int × Int)
    (h1 : Jacobian.walk mb f1 i path dof = .ok r1) (h2 : Jacobian.walk mb f2 i path dof = .ok r2) :
    r1 = r2 := by
  have e1 := walk_mono mb f1 i path dof r1 h1 (max f1 f2) (le_max_left f1 f2)
  have e2 := walk_mono mb f2 i path dof r2 h2 (max f1 f2) (le_max_right f1 f2)
  rw [e1] at e2
  cases e2
  rfl

theorem ofIndex_walk {A : Deps} {mem : Nat → A.Vector6d} {fuel : Nat} {mb : MultiBody A} {t : Int}
    {point : A.Vector3d} {eng : Jacobian A} (h : Jacobian.ofIndex mem fuel mb t point = .ok eng) :
    Jacobian.walk mb fuel t [] 0 = .ok (eng.jointsPath, pathDof mb eng.jointsPath) := by
  obtain ⟨_, hd, _, _, _⟩ := ofIndex_ok h
  unfold Jacobian.ofIndex at h
  cases hw : Jacobian.walk mb fuel t [] 0 with
  | error e => simp [hw] at h
  | ok r =>
    obtain ⟨pre, h1, _, h3, _⟩ := walk_ok mb fuel t [] 0 r hw
    obtain ⟨path, dof⟩ := r
    simp only [List.append_nil] at h1
    subst h1
    simp only [zero_add] at h3
    subst h3
    simp only [hw, MatrixXd.resize6] at h
    split at h
    · cases h
    · cases h
      rfl

theorem ofIndex_of_walk {A : Deps} (mem : Nat → A.Vector6d) (fuel : Nat) (mb : MultiBody A) (t : Int)
    (point : A.Vector3d) (path : List Int) (dof : Int)
    (hw : Jacobian.walk mb fuel t [] 0 = .ok (path, dof)) (hd : 0 ≤ dof) :
    Jacobian.ofIndex mem fuel mb t point = .ok ⟨path, point, ⟨6, (List.range dof.toNat).map mem⟩⟩ := by
  unfold Jacobian.ofIndex
  simp [hw, MatrixXd.resize6, hd]

theorem chain_ne_nil {A : Deps} {mb : MultiBody A} {pre : List Int} {i : Int}
    (h : AncestorChain mb pre i) (hi : i ≠ -1) : pre ≠ [] := by
  intro h0
  have := chain_last h hi
  rw [h0] at this
  simp at this

/-- C12: when the target index `t` is a root (its parent entry is the sentinel `-1`)
whose joint has a non-negative dof, the constructor, given at least one step of
fuel, builds the path `[t]` of length 1 and a matrix of 6 rows whose column
count is the dof of the root joint; the matrix has no column when that dof is 0. -/
theorem C12_root_target {A : Deps} (mem : Nat → A.Vector6d) (mb : MultiBody A) (t : Int)
    (point : A.Vector3d) (j : A.Joint)
    (hroot : vecAt mb.parent t = .ok (-1)) (hj : vecAt mb.joints t = .ok j) (hd : 0 ≤ A.dof j) :
    ∃ eng : Jacobian A,
      (∀ fuel, 1 ≤ fuel → Jacobian.ofIndex mem fuel mb t point = .ok eng) ∧
      eng.jointsPath = [t] ∧ eng.jointsPath.length = 1 ∧ eng.jac.rows = 6 ∧
      (eng.jac.columns.length : Int) = A.dof j ∧ (A.dof j = 0 → eng.jac.columns = []) := by
  have ht : t ≠ -1 := by
    have := (vecAt_ok_lt hj).1
    omega
  have hw : Jacobian.walk mb 1 t [] 0 = .ok ([t], A.dof j) := by
    rw [walk_succ mb 0 t (-1) j [] 0 ht hj hroot, walk_sentinel]
    simp
  refine ⟨⟨[t], point, ⟨6, (List.range (A.dof j).toNat).map mem⟩⟩, ?_, rfl, rfl, rfl, ?_, ?_⟩
  · intro fuel hf
    exact ofIndex_of_walk mem fuel mb t point [t] (A.dof j)
      (walk_mono mb 1 t [] 0 _ hw fuel hf) hd
  · simp only [List.length_map, List.length_range]
    omega
  · intro h0
    simp [h0]

/-- Instance of C12: body 0 of `exampleTree` is the root and its joint is fixed, so
the engine has the path `[0]` and a 6 x 0 matrix. -/
theorem C12_root_target_witness :
    ∃ eng : Jacobian intDeps,
      (∀ fuel, 1 ≤ fuel → Jacobian.ofIndex (fun _ => 0) fuel exampleTree 0 0 = .ok eng) ∧
      eng.jointsPath = [0] ∧ eng.jointsPath.length = 1 ∧ eng.jac.rows = 6 ∧
      (eng.jac.columns.length : Int) = intDeps.dof [] ∧ (intDeps.dof [] = 0 → eng.jac.columns = []) :=
  C12_root_target (fun _ => 0) exampleTree 0 0 [] rfl rfl (by decide)

/-- C13: every engine that the constructor builds for a target index other than the
sentinel `-1` has a path of length at least 1 and a dof (the column count of
its matrix, the sum of the dofs on the path) that is not negative; the path then
has a greatest element, which is what `max_element` returns. -/
theorem C13_path_nonempty {A : Deps} (mem : Nat → A.Vector6d) (fuel : Nat) (mb : MultiBody A)
    (t : Int) (point : A.Vector3d) (eng : Jacobian A)
    (hbuilt : Jacobian.ofIndex mem fuel mb t point = .ok eng) (ht : t ≠ -1) :
    1 ≤ eng.jointsPath.length ∧
    0 ≤ pathDof mb eng.jointsPath ∧
    (eng.jac.columns.length : Int) = pathDof mb eng.jointsPath ∧
    ∃ m, maxElement eng.jointsPath = .ok m ∧ m ∈ eng.jointsPath ∧ ∀ x ∈ eng.jointsPath, x ≤ m := by
  obtain ⟨hc, hd, hj, _, _⟩ := ofIndex_ok hbuilt
  have hne := chain_ne_nil hc ht
  obtain ⟨m, hm⟩ := maxElement_of_ne_nil hne
  refine ⟨?_, hd, ?_, m, hm, maxElement_ok hm⟩
  · cases hp : eng.jointsPath with
    | nil => exact absurd hp hne
    | cons a l => simp
  · rw [hj]
    simp only [List.length_map, List.length_range]
    omega

/-- Instance of C13: the engine built on `exampleTree` for body 4. -/
theorem C13_path_nonempty_witness :
    1 ≤ exampleEngine.jointsPath.length ∧
    0 ≤ pathDof exampleTree exampleEngine.jointsPath ∧
    (exampleEngine.jac.columns.length : Int) = pathDof exampleTree exampleEngine.jointsPath ∧
    ∃ m, maxElement exampleEngine.jointsPath = .ok m ∧ m ∈ exampleEngine.jointsPath ∧
      ∀ x ∈ exampleEngine.jointsPath, x ≤ m :=
  C13_path_nonempty (fun _ => 0) 5 exampleTree 4 0 exampleEngine rfl (by decide)

/-- With parent entries below their index, the walk from `i` returns within
`i + 1` steps and adds at most `i + 1` entries to the path. -/
theorem walk_of_parent_lt {A : Deps} (mb : MultiBody A)
    (hlen : mb.parent.length = mb.joints.length)
    (hlt : ∀ (n : Nat) (p : Int), mb.parent[n]? = some p → -1 ≤ p ∧ p < n) :
    ∀ (fuel : Nat) (i : Int), (i = -1 ∨ (0 ≤ i ∧ i < mb.parent.length)) → (i + 1).toNat ≤ fuel →
      ∀ (path : List Int) (dof : Int), ∃ r, Jacobian.walk mb fuel i path dof = .ok r ∧
        r.1.length ≤ (i + 1).toNat + path.length := by
  intro fuel
  induction fuel with
  | zero =>
    intro i hi hf path dof
    have h1 : i = -1 := by omega
    subst h1
    exact ⟨_, walk_sentinel mb 0 path dof, by simp⟩
  | succ fuel ih =>
    intro i hi hf path dof
    by_cases h1 : i = -1
    · subst h1
      exact ⟨_, walk_sentinel mb (fuel + 1) path dof, by simp⟩
    · have hr : 0 ≤ i ∧ i < mb.parent.length := by
        rcases hi with h | h
        · exact absurd h h1
        · exact h
      obtain ⟨p, hp⟩ := vecAt_of_lt mb.parent i hr.1 hr.2
      obtain ⟨j, hj⟩ := vecAt_of_lt mb.joints i hr.1 (by omega)
      have hpl := hlt i.toNat p (getElem?_toNat_of_vecAt hp)
      have hp2 : p = -1 ∨ (0 ≤ p ∧ p < mb.parent.length) := by omega
      obtain ⟨r, hw, hl⟩ := ih p hp2 (by omega) (i :: path) (dof + A.dof j)
      refine ⟨r, by rw [walk_succ mb fuel i p j path dof h1 hj hp]; exact hw, ?_⟩
      simp only [List.length_cons] at hl
      omega

/-- C15: when every parent entry satisfies `-1 ≤ parent(i) < i` (one joint per
body), the upward walk of the constructor from any target index `t ≥ 0` returns
with every fuel of at least `t + 1` steps, the path it produces has at most
`t + 1` entries, and it is the path of every engine the constructor builds for `t`. -/
theorem C15_walk_terminates {A : Deps} (mb : MultiBody A) (t : Int)
    (hlen : mb.parent.length = mb.joints.length)
    (hlt : ∀ (n : Nat) (p : Int), mb.parent[n]? = some p → -1 ≤ p ∧ p < n)
    (ht : 0 ≤ t ∧ t < mb.parent.length) :
    ∃ (path : List Int) (dof : Int),
      (∀ fuel, (t + 1).toNat ≤ fuel → Jacobian.walk mb fuel t [] 0 = .ok (path, dof)) ∧
      (path.length : Int) ≤ t + 1 ∧
      ∀ (mem : Nat → A.Vector6d) (fuel : Nat) (point : A.Vector3d) (eng : Jacobian A),
        Jacobian.ofIndex mem fuel mb t point = .ok eng → eng.jointsPath = path := by
  obtain ⟨r, hw, hl⟩ := walk_of_parent_lt mb hlen hlt (t + 1).toNat t (Or.inr ht) (le_refl _) [] 0
  obtain ⟨path, dof⟩ := r
  refine ⟨path, dof, fun fuel hf => walk_mono mb _ t [] 0 _ hw fuel hf, ?_, ?_⟩
  · simp only [List.length_nil, add_zero] at hl
    omega
  · intro mem fuel point eng hb
    have := walk_unique mb _ _ t [] 0 _ _ (ofIndex_walk hb) hw
    exact congrArg Prod.fst this

/-- Instance of C15 on `exampleTree` for the target body 4. -/
theorem C15_walk_terminates_witness :
    ∃ (path : List Int) (dof : Int),
      (∀ fuel, ((4 : Int) + 1).toNat ≤ fuel →
        Jacobian.walk exampleTree fuel 4 [] 0 = .ok (path, dof)) ∧
      (path.length : Int) ≤ 4 + 1 ∧
      ∀ (mem : Nat → intDeps.Vector6d) (fuel : Nat) (point : intDeps.Vector3d)
        (eng : Jacobian intDeps),
        Jacobian.ofIndex mem fuel exampleTree 4 point = .ok eng → eng.jointsPath = path :=
  C15_walk_terminates exampleTree 4 (by decide) exampleTree_parent_lt (by decide)

theorem chain_increasing {A : Deps} {mb : MultiBody A} {pre : List Int} {i : Int}
    (h : AncestorChain mb pre i)
    (hlt : ∀ (n : Nat) (p : Int), mb.parent[n]? = some p → -1 ≤ p ∧ p < n) :
    pre.Pairwise (fun a b => a < b) ∧ ∀ x ∈ pre, x ≤ i := by
  induction h with
  | root => exact ⟨List.Pairwise.nil, fun x hx => by simp at hx⟩
  | @step pre0 i p hi0 hp hc ih =>
    obtain ⟨h1, h2⟩ := ih
    have hpi : p < i := by
      have := hlt i.toNat p (getElem?_toNat_of_vecAt hp)
      have := (vecAt_ok_lt hp).1
      omega
    refine ⟨?_, ?_⟩
    · rw [List.pairwise_append]
      refine ⟨h1, List.pairwise_singleton _ _, ?_⟩
      intro a ha b hb
      simp only [List.mem_singleton] at hb
      subst hb
      have := h2 a ha
      omega
    · intro x hx
      rcases List.mem_append.1 hx with hx | hx
      · have := h2 x hx
        omega
      · simp only [List.mem_singleton] at hx
        omega

/-- C16: when every parent entry of the construction topology satisfies
`-1 ≤ parent(i) < i`, the path of an engine built for `t ≠ -1` is strictly
increasing, so without repetition and with non-negative entries, and its
greatest element, the value `max_element` returns, is `t`; hence for a supplied
topology with fewer than `2^31` joints the maximum-index check of
`sSubMultiBody`, and that of `sJacobian` once the size validators pass, lets the
call through exactly when `t` is below the joint count. -/
theorem C16_path_increasing {A : Deps} (mem : Nat → A.Vector6d) (fuel : Nat) (mb0 : MultiBody A)
    (t : Int) (point : A.Vector3d) (eng : Jacobian A)
    (hbuilt : Jacobian.ofIndex mem fuel mb0 t point = .ok eng) (ht : t ≠ -1)
    (hlt : ∀ (n : Nat) (p : Int), mb0.parent[n]? = some p → -1 ≤ p ∧ p < n) :
    eng.jointsPath.Pairwise (fun a b => a < b) ∧
    eng.jointsPath.Nodup ∧
    (∀ x ∈ eng.jointsPath, 0 ≤ x) ∧
    maxElement eng.jointsPath = .ok t ∧
    ∀ mb : MultiBody A, mb.joints.length < 2 ^ 31 →
      ((¬ t ≥ staticCastInt mb.nrJoints) ↔ t < (mb.joints.length : Int)) ∧
      (eng.sSubMultiBody mb ≠ .error .pathMismatch ↔ t < (mb.joints.length : Int)) ∧
      ∀ mbc : MultiBodyConfig A, mbc.bodyPosW.length = mb.bodies.length →
        mbc.jointConfig.length = mb.joints.length →
        ((eng.sJacobian mb mbc).1 ≠ .error .pathMismatch ↔ t < (mb.joints.length : Int)) := by
  obtain ⟨hc, _, _, _, _⟩ := ofIndex_ok hbuilt
  obtain ⟨hpw, hle⟩ := chain_increasing hc hlt
  have hmem : t ∈ eng.jointsPath := List.mem_of_getLast?_eq_some (chain_last hc ht)
  refine ⟨hpw, hpw.imp (fun h => ne_of_lt h), fun x hx => (chain_nonneg hc x hx).1,
    maxElement_eq hmem hle, ?_⟩
  intro mb hn
  refine ⟨?_, ?_, ?_⟩
  · rw [MultiBody.nrJoints, staticCastInt_eq _ hn]
    omega
  · rw [sSubMultiBody_checked eng mb t hmem hle hn]
    constructor
    · intro h
      by_contra hcon
      exact h (if_pos (by omega))
    · intro h hcon
      rw [if_neg (by omega)] at hcon
      have := subMultiBodyLoop_error mb _ _ _ _ hcon
      cases this
  · intro mbc hb hj
    rw [sJacobian_checked eng mb mbc t hmem hle hn hb hj]
    constructor
    · intro h
      by_contra hcon
      exact h (by rw [if_pos (by omega)])
    · intro h hcon
      rw [if_neg (by omega)] at hcon
      have := jacobian_not_thrown eng mb mbc _ hcon
      cases this

/-- Instance of C16: the engine built on `exampleTree` for body 4. -/
theorem C16_path_increasing_witness :
    exampleEngine.jointsPath.Pairwise (fun a b => a < b) ∧
    exampleEngine.jointsPath.Nodup ∧
    (∀ x ∈ exampleEngine.jointsPath, 0 ≤ x) ∧
    maxElement exampleEngine.jointsPath = .ok 4 ∧
    ∀ mb : MultiBody intDeps, mb.joints.length < 2 ^ 31 →
      ((¬ (4 : Int) ≥ staticCastInt mb.nrJoints) ↔ 4 < (mb.joints.length : Int)) ∧
      (exampleEngine.sSubMultiBody mb ≠ .error .pathMismatch ↔ 4 < (mb.joints.length : Int)) ∧
      ∀ mbc : MultiBodyConfig intDeps, mbc.bodyPosW.length = mb.bodies.length →
        mbc.jointConfig.length = mb.joints.length →
        ((exampleEngine.sJacobian mb mbc).1 ≠ .error .pathMismatch ↔ 4 < (mb.joints.length : Int)) :=
  C16_path_increasing (fun _ => 0) 5 exampleTree 4 0 exampleEngine rfl (by decide)
    exampleTree_parent_lt

/-! ## Independence of the buffer and of the attachment point -/

theorem blockAt_ok_inv {A : Deps} {path : List Int} {mb : MultiBody A} {mbc : MultiBodyConfig A}
    {i d : Int} {B : List A.Vector6d} (h : Jacobian.blockAt path mb mbc i = .ok (d, B)) :
    d = dofAt mb i ∧ specBlock path mb mbc i = some B ∧
      ∃ j, vecAt mb.joints i = .ok j ∧ d = A.dof j ∧ B.length = (A.motionSubspace j).length := by
  unfold Jacobian.blockAt at h
  cases h1 : vecAt mbc.jointConfig i with
  | error e => simp [h1] at h
  | ok X_i =>
  cases h2 : vecAt mb.succ i with
  | error e => simp [h1, h2] at h
  | ok s =>
  cases h3 : vecAt mbc.bodyPosW s with
  | error e => simp [h1, h2, h3] at h
  | ok Ws =>
  cases h4 : path.getLast? with
  | none => simp [h1, h2, h3, h4] at h
  | some back =>
  cases h5 : vecAt mbc.bodyPosW back with
  | error e => simp [h1, h2, h3, h4, h5] at h
  | ok Wn =>
  cases h6 : vecAt mbc.bodyPosW i with
  | error e => simp [h1, h2, h3, h4, h5, h6] at h
  | ok Wi =>
  cases h7 : vecAt mb.joints i with
  | error e => simp [h1, h2, h3, h4, h5, h6, h7] at h
  | ok j =>
  cases h8 : vecAt mb.Xto i with
  | error e => simp [h1, h2, h3, h4, h5, h6, h7, h8] at h
  | ok Xt =>
    simp only [h1, h2, h3, h4, h5, h6, h7, h8, Except.ok.injEq, Prod.mk.injEq] at h
    obtain ⟨hd, hB⟩ := h
    refine ⟨?_, ?_, j, rfl, hd.symm, ?_⟩
    · simp only [dofAt, h7]
      exact hd.symm
    · unfold specBlock
      simp only [getElem?_toNat_of_vecAt h1, getElem?_toNat_of_vecAt h2,
        getElem?_toNat_of_vecAt h3, h4, getElem?_toNat_of_vecAt h5, getElem?_toNat_of_vecAt h6,
        getElem?_toNat_of_vecAt h7, getElem?_toNat_of_vecAt h8, Option.pure_def,
        Option.bind_eq_bind, Option.some_bind, hB]
    · rw [← hB, List.length_map]

theorem setBlock_congr {A : Deps} (m1 m2 : MatrixXd A) (c d : Int) (B : List A.Vector6d)
    (hr : m1.rows = m2.rows) (hc : m1.columns.length = m2.columns.length) :
    (∃ a b, m1.setBlock c d B = .ok a ∧ m2.setBlock c d B = .ok b) ∨
      (m1.setBlock c d B = .error .invalidBlock ∧ m2.setBlock c d B = .error .invalidBlock) := by
  unfold MatrixXd.setBlock
  rw [hr, hc]
  split
  · exact Or.inl ⟨_, _, rfl, rfl⟩
  · exact Or.inr ⟨rfl, rfl⟩

/-- Whether the loop of `jacobian` ends normally, and how it faults, depends on the
matrix only through its dimensions. -/
theorem jacobianLoop_result_dims {A : Deps} (path : List Int) (mb : MultiBody A)
    (mbc : MultiBodyConfig A) :
    ∀ (rest : List Int) (curJ : Int) (jac1 jac2 : MatrixXd A),
      jac1.rows = jac2.rows → jac1.columns.length = jac2.columns.length →
      (Jacobian.jacobianLoop path mb mbc rest curJ jac1).1 =
        (Jacobian.jacobianLoop path mb mbc rest curJ jac2).1 := by
  intro rest
  induction rest with
  | nil => intro curJ jac1 jac2 _ _; simp [Jacobian.jacobianLoop]
  | cons i rest ih =>
    intro curJ jac1 jac2 hr hc
    rw [Jacobian.jacobianLoop, Jacobian.jacobianLoop]
    cases hb : Jacobian.blockAt path mb mbc i with
    | error e => simp
    | ok r =>
      obtain ⟨d, B⟩ := r
      simp only
      rcases setBlock_congr jac1 jac2 curJ d B hr hc with ⟨a, b, ha, hb2⟩ | ⟨ha, hb2⟩
      · simp only [ha, hb2]
        obtain ⟨a1, a2⟩ := setBlock_dims ha
        obtain ⟨b1, b2⟩ := setBlock_dims hb2
        exact ih (curJ + d) a b (by omega) (by omega)
      · simp only [ha, hb2]

/-- A loop that ends normally has read every remaining block, each of the width of
its joint, and all of them fit in the matrix. -/
theorem jacobianLoop_ok_blocks {A : Deps} (path : List Int) (mb : MultiBody A)
    (mbc : MultiBodyConfig A) :
    ∀ (rest : List Int) (curJ : Int) (jac : MatrixXd A),
      (Jacobian.jacobianLoop path mb mbc rest curJ jac).1 = .ok () →
      curJ ≤ (jac.columns.length : Int) →
      (∀ i ∈ rest, ∃ B, Jacobian.blockAt path mb mbc i = .ok (dofAt mb i, B) ∧
        specBlock path mb mbc i = some B ∧ (B.length : Int) = dofAt mb i) ∧
      curJ + pathDof mb rest ≤ (jac.columns.length : Int) ∧
      (rest ≠ [] → 0 ≤ curJ ∧ 6 ≤ jac.rows) := by
  intro rest
  induction rest with
  | nil =>
    intro curJ jac _ hle
    exact ⟨fun i hi => by simp at hi, by simpa [pathDof] using hle, fun h => absurd rfl h⟩
  | cons i rest ih =>
    intro curJ jac hok _
    rw [Jacobian.jacobianLoop] at hok
    cases hb : Jacobian.blockAt path mb mbc i with
    | error e => simp [hb] at hok
    | ok r =>
      obtain ⟨d, B⟩ := r
      simp only [hb] at hok
      cases hs : jac.setBlock curJ d B with
      | error e => simp [hs] at hok
      | ok jac1 =>
        simp only [hs] at hok
        obtain ⟨⟨h0, hd0, hrows, hfit, hlen⟩, _⟩ := (setBlock_ok_iff jac curJ d B jac1).1 hs
        obtain ⟨hdd, hsB, _⟩ := blockAt_ok_inv hb
        have hl1 := (setBlock_dims hs).2
        obtain ⟨h1, h2, _⟩ := ih (curJ + d) jac1 hok (by omega)
        subst hdd
        refine ⟨?_, ?_, fun _ => ⟨h0, hrows⟩⟩
        · intro x hx
          rcases List.mem_cons.1 hx with rfl | hx
          · exact ⟨B, hb, hsB, hlen⟩
          · exact h1 x hx
        · rw [pathDof_cons]
          omega

/-- The columns of the matrix after a loop that ended normally: those before `curJ`
and those after the last block are untouched, the others are the blocks. -/
theorem jacobianLoop_ok_columns {A : Deps} (path : List Int) (mb : MultiBody A)
    (mbc : MultiBodyConfig A) (rest : List Int) (curJ : Int) (jac : MatrixXd A)
    (hok : (Jacobian.jacobianLoop path mb mbc rest curJ jac).1 = .ok ())
    (h0 : 0 ≤ curJ) (hle : curJ ≤ (jac.columns.length : Int)) :
    (Jacobian.jacobianLoop path mb mbc rest curJ jac).2 =
      ⟨jac.rows, jac.columns.take curJ.toNat ++
        (rest.map (fun i => (specBlock path mb mbc i).getD [])).flatten ++
        jac.columns.drop (curJ + pathDof mb rest).toNat⟩ ∧
    (((rest.map (fun i => (specBlock path mb mbc i).getD [])).flatten.length : Nat) : Int)
      = pathDof mb rest ∧
    curJ + pathDof mb rest ≤ (jac.columns.length : Int) := by
  obtain ⟨h1, h2, h3⟩ := jacobianLoop_ok_blocks path mb mbc rest curJ jac hok hle
  have hfl := flatten_length_eq_pathDof mb (fun i => (specBlock path mb mbc i).getD []) rest
    (fun x hx => by
      obtain ⟨B1, _, hs, hl⟩ := h1 x hx
      simp only [hs, Option.getD_some]
      exact hl)
  refine ⟨?_, hfl, h2⟩
  cases rest with
  | nil =>
    simp only [Jacobian.jacobianLoop, pathDof, List.map_nil, List.sum_nil, add_zero,
      List.flatten_nil, List.append_nil, List.take_append_drop]
  | cons i rest =>
    rw [jacobianLoop_spec path mb mbc (i :: rest) curJ jac h1 h0 (h3 (by simp)).2 h2]

/-- On two objects with the same path and matrices of the same dimensions, whose
column count is the sum of the dofs of the path joints in `mb`, `jacobian`
returns the same matrix, or faults the same way. -/
theorem jacobian_buffer_indep {A : Deps} (s1 s2 : Jacobian A) (mb : MultiBody A)
    (mbc : MultiBodyConfig A)
    (hp : s1.jointsPath = s2.jointsPath) (hr : s1.jac.rows = s2.jac.rows)
    (hc : s1.jac.columns.length = s2.jac.columns.length)
    (hd : pathDof mb s1.jointsPath = (s1.jac.columns.length : Int)) :
    (s1.jacobian mb mbc).1 = (s2.jacobian mb mbc).1 := by
  rw [jacobian_result, jacobian_result, ← hp]
  have hres := jacobianLoop_result_dims s1.jointsPath mb mbc s1.jointsPath 0 s1.jac s2.jac hr hc
  rw [← hres]
  cases h1 : (Jacobian.jacobianLoop s1.jointsPath mb mbc s1.jointsPath 0 s1.jac).1 with
  | error e => rfl
  | ok u =>
    cases u
    have h2 : (Jacobian.jacobianLoop s1.jointsPath mb mbc s1.jointsPath 0 s2.jac).1 = .ok () := by
      rw [← hres]; exact h1
    obtain ⟨e1, _, _⟩ := jacobianLoop_ok_columns s1.jointsPath mb mbc s1.jointsPath 0 s1.jac h1
      (le_refl 0) (by omega)
    obtain ⟨e2, _, _⟩ := jacobianLoop_ok_columns s1.jointsPath mb mbc s1.jointsPath 0 s2.jac h2
      (le_refl 0) (by omega)
    have hd1 : (0 + pathDof mb s1.jointsPath).toNat = s1.jac.columns.length := by omega
    have hd2 : (0 + pathDof mb s1.jointsPath).toNat = s2.jac.columns.length := by omega
    rw [hd1] at e1
    rw [hd2] at e2
    simp only [Int.toNat_zero, List.take_zero, List.nil_append, List.drop_length,
      List.append_nil] at e1 e2
    simp only [e1, e2, hr]

/-- A second call of `jacobian` with the same arguments returns what the first call
returned. -/
theorem jacobian_twice {A : Deps} (self : Jacobian A) (mb : MultiBody A) (mbc : MultiBodyConfig A) :
    ((self.jacobian mb mbc).2.jacobian mb mbc).1 = (self.jacobian mb mbc).1 := by
  rw [jacobian_result (self.jacobian mb mbc).2, jacobian_state, jacobian_result self]
  simp only
  obtain ⟨hr, hc⟩ := jacobianLoop_dims self.jointsPath mb mbc self.jointsPath 0 self.jac
  have hres := jacobianLoop_result_dims self.jointsPath mb mbc self.jointsPath 0
    (Jacobian.jacobianLoop self.jointsPath mb mbc self.jointsPath 0 self.jac).2 self.jac hr hc
  rw [hres]
  cases h1 : (Jacobian.jacobianLoop self.jointsPath mb mbc self.jointsPath 0 self.jac).1 with
  | error e => rfl
  | ok u =>
    cases u
    have h2 := hres.trans h1
    obtain ⟨e1, hx, hfit⟩ := jacobianLoop_ok_columns self.jointsPath mb mbc self.jointsPath 0
      self.jac h1 (le_refl 0) (by omega)
    obtain ⟨e2, _, _⟩ := jacobianLoop_ok_columns self.jointsPath mb mbc self.jointsPath 0
      (Jacobian.jacobianLoop self.jointsPath mb mbc self.jointsPath 0 self.jac).2 h2
      (le_refl 0) (by omega)
    have hw : (0 + pathDof mb self.jointsPath).toNat
        = (self.jointsPath.map (fun i => (specBlock self.jointsPath mb mbc i).getD [])).flatten.length := by
      omega
    simp only
    congr 1
    rw [e2]
    generalize (Jacobian.jacobianLoop self.jointsPath mb mbc self.jointsPath 0 self.jac).2 = R
      at e1 ⊢
    subst e1
    simp only [Int.toNat_zero, List.take_zero, List.nil_append, hw, List.drop_left]

theorem ofIndex_same_path {A : Deps} {mem1 mem2 : Nat → A.Vector6d} {fuel1 fuel2 : Nat}
    {mb : MultiBody A} {t : Int} {p1 p2 : A.Vector3d} {eng1 eng2 : Jacobian A}
    (h1 : Jacobian.ofIndex mem1 fuel1 mb t p1 = .ok eng1)
    (h2 : Jacobian.ofIndex mem2 fuel2 mb t p2 = .ok eng2) :
    eng1.jointsPath = eng2.jointsPath :=
  congrArg Prod.fst (walk_unique mb _ _ t [] 0 _ _ (ofIndex_walk h1) (ofIndex_walk h2))

theorem ofIndex_dims {A : Deps} {mem : Nat → A.Vector6d} {fuel : Nat} {mb : MultiBody A} {t : Int}
    {point : A.Vector3d} {eng : Jacobian A} (h : Jacobian.ofIndex mem fuel mb t point = .ok eng) :
    eng.jac.rows = 6 ∧ (eng.jac.columns.length : Int) = pathDof mb eng.jointsPath := by
  obtain ⟨_, hd, hj, _, _⟩ := ofIndex_ok h
  rw [hj]
  refine ⟨rfl, ?_⟩
  simp only [List.length_map, List.length_range]
  omega

theorem pathDof_congr {A : Deps} (mb mb0 : MultiBody A) (path : List Int)
    (h : ∀ i ∈ path, dofAt mb i = dofAt mb0 i) : pathDof mb path = pathDof mb0 path := by
  unfold pathDof
  rw [List.map_congr_left h]

/-- C14: a second call of `jacobian` on the same object with the same topology and
configuration returns the same matrix as the first (or faults the same way);
and for an engine built by the constructor, when the path joints have in `mb`
the dofs they had at construction, the result is the same whatever the owned
buffer holds before the call, and a matrix returned normally is the six-row
matrix made of the blocks of the path entries, which are determined by the
path, the topology and the configuration. -/
theorem C14_jacobian_deterministic {A : Deps} (mem : Nat → A.Vector6d) (fuel : Nat)
    (mb0 : MultiBody A) (t : Int) (point : A.Vector3d) (eng : Jacobian A) (mb : MultiBody A)
    (mbc : MultiBodyConfig A) :
    (∀ self : Jacobian A,
      ((self.jacobian mb mbc).2.jacobian mb mbc).1 = (self.jacobian mb mbc).1) ∧
    (Jacobian.ofIndex mem fuel mb0 t point = .ok eng →
      (∀ i ∈ eng.jointsPath, dofAt mb i = dofAt mb0 i) →
      (∀ buf : List A.Vector6d, buf.length = eng.jac.columns.length →
        ((⟨eng.jointsPath, eng.point, ⟨6, buf⟩⟩ : Jacobian A).jacobian mb mbc).1
          = (eng.jacobian mb mbc).1) ∧
      ∀ M : MatrixXd A, (eng.jacobian mb mbc).1 = .ok M →
        M = ⟨6, (eng.jointsPath.map
          (fun i => (specBlock eng.jointsPath mb mbc i).getD [])).flatten⟩) := by
  refine ⟨fun self => jacobian_twice self mb mbc, ?_⟩
  intro hbuilt hdof
  obtain ⟨hrows, hcols⟩ := ofIndex_dims hbuilt
  have hsame := pathDof_congr mb mb0 eng.jointsPath hdof
  refine ⟨?_, ?_⟩
  · intro buf hbuf
    exact jacobian_buffer_indep ⟨eng.jointsPath, eng.point, ⟨6, buf⟩⟩ eng mb mbc rfl hrows.symm hbuf
      (by simp only; omega)
  · intro M hM
    rw [jacobian_result] at hM
    cases h1 : (Jacobian.jacobianLoop eng.jointsPath mb mbc eng.jointsPath 0 eng.jac).1 with
    | error e => simp [h1] at hM
    | ok u =>
      cases u
      simp only [h1, Except.ok.injEq] at hM
      obtain ⟨e1, _, _⟩ := jacobianLoop_ok_columns eng.jointsPath mb mbc eng.jointsPath 0 eng.jac h1
        (le_refl 0) (by omega)
      have hd1 : (0 + pathDof mb eng.jointsPath).toNat = eng.jac.columns.length := by omega
      rw [← hM, e1, hd1, hrows]
      simp only [Int.toNat_zero, List.take_zero, List.nil_append, List.drop_length, List.append_nil]

/-- Instance of C14: the engine built on `exampleTree` for body 4, called on
`exampleTree` and `exampleConfig`, and the same engine with another buffer. -/
theorem C14_jacobian_deterministic_witness :
    ((exampleEngine.jacobian exampleTree exampleConfig).2.jacobian exampleTree exampleConfig).1
      = (exampleEngine.jacobian exampleTree exampleConfig).1 ∧
    ((⟨exampleEngine.jointsPath, exampleEngine.point, ⟨6, [1, 2, 3, 4, 5]⟩⟩ :
        Jacobian intDeps).jacobian exampleTree exampleConfig).1
      = (exampleEngine.jacobian exampleTree exampleConfig).1 ∧
    ∀ M : MatrixXd intDeps, (exampleEngine.jacobian exampleTree exampleConfig).1 = .ok M →
      M = ⟨6, (exampleEngine.jointsPath.map
        (fun i => (specBlock exampleEngine.jointsPath exampleTree exampleConfig i).getD [])).flatten⟩ :=
  ⟨(C14_jacobian_deterministic (fun _ => 0) 5 exampleTree 4 0 exampleEngine exampleTree
      exampleConfig).1 exampleEngine,
    ((C14_jacobian_deterministic (fun _ => 0) 5 exampleTree 4 0 exampleEngine exampleTree
      exampleConfig).2 rfl (fun _ _ => rfl)).1 [1, 2, 3, 4, 5] rfl,
    ((C14_jacobian_deterministic (fun _ => 0) 5 exampleTree 4 0 exampleEngine exampleTree
      exampleConfig).2 rfl (fun _ _ => rfl)).2⟩

/-- C17: the attachment point does not influence the result.  Two engines that the
constructor builds for the same topology and target with different points (and
whatever their fresh storage holds) return the same matrix, or fault the same
way, from `jacobian` on that topology and any configuration, and on any
topology in which the path joints have the dofs seen at construction; and
replacing the stored point of any object changes neither what `jacobian`
returns nor the matrix it leaves. -/
theorem C17_point_not_read {A : Deps} (mem1 mem2 : Nat → A.Vector6d) (fuel1 fuel2 : Nat)
    (mb0 : MultiBody A) (t : Int) (p1 p2 : A.Vector3d) (eng1 eng2 : Jacobian A)
    (h1 : Jacobian.ofIndex mem1 fuel1 mb0 t p1 = .ok eng1)
    (h2 : Jacobian.ofIndex mem2 fuel2 mb0 t p2 = .ok eng2) :
    (∀ mbc : MultiBodyConfig A, (eng1.jacobian mb0 mbc).1 = (eng2.jacobian mb0 mbc).1) ∧
    (∀ (mb : MultiBody A) (mbc : MultiBodyConfig A),
      (∀ i ∈ eng1.jointsPath, dofAt mb i = dofAt mb0 i) →
      (eng1.jacobian mb mbc).1 = (eng2.jacobian mb mbc).1) ∧
    ∀ (self : Jacobian A) (p : A.Vector3d) (mb : MultiBody A) (mbc : MultiBodyConfig A),
      ((⟨self.jointsPath, p, self.jac⟩ : Jacobian A).jacobian mb mbc).1 = (self.jacobian mb mbc).1 ∧
      ((⟨self.jointsPath, p, self.jac⟩ : Jacobian A).jacobian mb mbc).2.jac
        = (self.jacobian mb mbc).2.jac := by
  have hp := ofIndex_same_path h1 h2
  obtain ⟨hr1, hc1⟩ := ofIndex_dims h1
  obtain ⟨hr2, hc2⟩ := ofIndex_dims h2
  have hgen : ∀ (mb : MultiBody A) (mbc : MultiBodyConfig A),
      (∀ i ∈ eng1.jointsPath, dofAt mb i = dofAt mb0 i) →
      (eng1.jacobian mb mbc).1 = (eng2.jacobian mb mbc).1 := by
    intro mb mbc hdof
    have hsame := pathDof_congr mb mb0 eng1.jointsPath hdof
    exact jacobian_buffer_indep eng1 eng2 mb mbc hp (by omega) (by rw [← hp] at hc2; omega)
      (by omega)
  refine ⟨fun mbc => hgen mb0 mbc (fun _ _ => rfl), hgen, ?_⟩
  intro self p mb mbc
  refine ⟨?_, ?_⟩
  · rw [jacobian_result, jacobian_result]
  · rw [jacobian_state, jacobian_state]

/-- Instance of C17: two engines on `exampleTree` for body 4, with points 0 and 7
and different fresh storage. -/
theorem C17_point_not_read_witness :
    Jacobian.ofIndex (fun _ => 0) 5 exampleTree 4 0 = .ok exampleEngine ∧
    Jacobian.ofIndex (fun _ => 1) 6 exampleTree 4 7
      = .ok ⟨[0, 1, 3, 4], 7, ⟨6, [1, 1, 1, 1, 1]⟩⟩ ∧
    (∀ mbc : MultiBodyConfig intDeps,
      (exampleEngine.jacobian exampleTree mbc).1
        = ((⟨[0, 1, 3, 4], 7, ⟨6, [1, 1, 1, 1, 1]⟩⟩ : Jacobian intDeps).jacobian exampleTree mbc).1) ∧
    (∀ (mb : MultiBody intDeps) (mbc : MultiBodyConfig intDeps),
      (∀ i ∈ exampleEngine.jointsPath, dofAt mb i = dofAt exampleTree i) →
      (exampleEngine.jacobian mb mbc).1
        = ((⟨[0, 1, 3, 4], 7, ⟨6, [1, 1, 1, 1, 1]⟩⟩ : Jacobian intDeps).jacobian mb mbc).1) ∧
    ∀ (self : Jacobian intDeps) (p : intDeps.Vector3d) (mb : MultiBody intDeps)
      (mbc : MultiBodyConfig intDeps),
      ((⟨self.jointsPath, p, self.jac⟩ : Jacobian intDeps).jacobian mb mbc).1
        = (self.jacobian mb mbc).1 ∧
      ((⟨self.jointsPath, p, self.jac⟩ : Jacobian intDeps).jacobian mb mbc).2.jac
        = (self.jacobian mb mbc).2.jac :=
  ⟨rfl, rfl, C17_point_not_read (fun _ => 0) (fun _ => 1) 5 6 exampleTree 4 0 7
    exampleEngine ⟨[0, 1, 3, 4], 7, ⟨6, [1, 1, 1, 1, 1]⟩⟩ rfl rfl⟩

/-! ## Identity transforms -/

theorem specBlock_identity {A : Deps} (path : List Int) (mb : MultiBody A) (mbc : MultiBodyConfig A)
    (one : A.PTransform)
    (hmul : A.mul one one = one) (hinv : A.inv one = one) (hrot : A.rotationOnly one = one)
    (hact : ∀ v, A.matrixMul one v = v)
    (hXto : ∀ x ∈ mb.Xto, x = one) (hcfg : ∀ x ∈ mbc.jointConfig, x = one)
    (hpos : ∀ x ∈ mbc.bodyPosW, x = one)
    (hread : ReadsInRange path mb mbc) (i : Int) (hi : i ∈ path) :
    specBlock path mb mbc i = some (subspaceAt mb i) := by
  obtain ⟨h0, hj, ht, hc, hw, s, hs, hs0, hs1⟩ := hread i hi
  obtain ⟨j, hj⟩ := vecAt_of_lt mb.joints i h0 hj
  obtain ⟨xt, ht⟩ := vecAt_of_lt mb.Xto i h0 ht
  obtain ⟨xi, hc⟩ := vecAt_of_lt mbc.jointConfig i h0 hc
  obtain ⟨wi, hw⟩ := vecAt_of_lt mbc.bodyPosW i h0 hw
  obtain ⟨ws, hws⟩ := vecAt_of_lt mbc.bodyPosW s hs0 hs1
  have hne : path ≠ [] := List.ne_nil_of_mem hi
  have hlast : path.getLast? = some (path.getLast hne) := List.getLast?_eq_getLast path hne
  obtain ⟨hn0, _, _, _, hn, _⟩ := hread _ (List.getLast_mem hne)
  obtain ⟨wn, hwn⟩ := vecAt_of_lt mbc.bodyPosW _ hn0 hn
  have e1 := hXto xt (vecAt_ok_mem ht)
  have e2 := hcfg xi (vecAt_ok_mem hc)
  have e3 := hpos wi (vecAt_ok_mem hw)
  have e4 := hpos ws (vecAt_ok_mem hws)
  have e5 := hpos wn (vecAt_ok_mem hwn)
  subst e1 e2 e3 e4 e5
  unfold specBlock subspaceAt
  simp only [getElem?_toNat_of_vecAt hj, getElem?_toNat_of_vecAt hs, getElem?_toNat_of_vecAt ht,
    getElem?_toNat_of_vecAt hc, getElem?_toNat_of_vecAt hw, getElem?_toNat_of_vecAt hws, hlast,
    getElem?_toNat_of_vecAt hwn, Option.pure_def, Option.bind_eq_bind, Option.some_bind, hj,
    hrot, hinv, hmul]
  congr 1
  conv_rhs => rw [← List.map_id (A.motionSubspace j)]
  exact List.map_congr_left (fun v _ => hact v)

theorem flatten_singletons {α : Type} :
    ∀ L : List (List α), (∀ l ∈ L, l.length = 1) → L.flatten.map (fun c => [c]) = L := by
  intro L
  induction L with
  | nil => intro _; rfl
  | cons l L ih =>
    intro h
    have hl := h l (List.mem_cons_self l L)
    obtain ⟨c, rfl⟩ := List.length_eq_one.1 hl
    simp only [List.flatten_cons, List.singleton_append, List.map_cons, List.cons.injEq, true_and]
    exact ih (fun x hx => h x (List.mem_cons_of_mem _ hx))

/-- C11: let `one` be an identity transform (`one * one = one`, `one⁻¹ = one`, its
rotation-only part is `one`, its matrix fixes every column).  For an engine
built by the constructor on a consistent topology whose `transformTo` entries
are all `one`, and a configuration of matching sizes whose joint transforms and
world poses are all `one`, `jacobian` returns the concatenation in path order
of the motion-subspace matrices of the path joints; when every path joint has
one dof, the matrix has one column per path entry and its `k`-th column is the
motion-subspace vector of the `k`-th path joint. -/
theorem C11_identity_chain {A : Deps} (mem : Nat → A.Vector6d) (fuel : Nat) (mb : MultiBody A)
    (t : Int) (point : A.Vector3d) (eng : Jacobian A) (mbc : MultiBodyConfig A) (one : A.PTransform)
    (hmul : A.mul one one = one) (hinv : A.inv one = one) (hrot : A.rotationOnly one = one)
    (hact : ∀ v, A.matrixMul one v = v)
    (hbuilt : Jacobian.ofIndex mem fuel mb t point = .ok eng)
    (hwf : mb.Consistent)
    (hb : mbc.bodyPosW.length = mb.bodies.length) (hj : mbc.jointConfig.length = mb.joints.length)
    (hXto : ∀ x ∈ mb.Xto, x = one) (hcfg : ∀ x ∈ mbc.jointConfig, x = one)
    (hpos : ∀ x ∈ mbc.bodyPosW, x = one)
    (hS : ∀ j ∈ mb.joints, ((A.motionSubspace j).length : Int) = A.dof j) :
    ∃ M : MatrixXd A,
      eng.jacobian mb mbc = (.ok M, ⟨eng.jointsPath, eng.point, M⟩) ∧
      M.rows = 6 ∧
      M.columns = (eng.jointsPath.map (subspaceAt mb)).flatten ∧
      ((∀ i ∈ eng.jointsPath, dofAt mb i = 1) →
        M.columns.length = eng.jointsPath.length ∧
        M.columns.map (fun c => [c]) = eng.jointsPath.map (subspaceAt mb)) := by
  obtain ⟨_, _, _, _, hjoints⟩ := ofIndex_ok hbuilt
  obtain ⟨hrows, hcols⟩ := ofIndex_dims hbuilt
  have hread : ReadsInRange eng.jointsPath mb mbc :=
    reads_of_consistent eng.jointsPath mb mbc hwf hb hj (fun i hi => by
      obtain ⟨j, hj⟩ := hjoints i hi
      exact vecAt_ok_lt hj)
  have hspec := jacobian_spec eng mb mbc hread hS (by omega) hcols.symm
  have hblocks : eng.jointsPath.map (fun i => (specBlock eng.jointsPath mb mbc i).getD [])
      = eng.jointsPath.map (subspaceAt mb) :=
    List.map_congr_left (fun i hi => by
      rw [specBlock_identity eng.jointsPath mb mbc one hmul hinv hrot hact hXto hcfg hpos hread i hi]
      rfl)
  rw [hblocks] at hspec
  refine ⟨_, hspec, hrows, rfl, ?_⟩
  intro hone
  have hsing : ∀ l ∈ eng.jointsPath.map (subspaceAt mb), l.length = 1 := by
    intro l hl
    obtain ⟨i, hi, rfl⟩ := List.mem_map.1 hl
    obtain ⟨j, hj⟩ := hjoints i hi
    have h1 := hone i hi
    have h2 := hS j (vecAt_ok_mem hj)
    simp only [dofAt, hj] at h1
    simp only [subspaceAt, hj]
    omega
  have hfl := flatten_singletons _ hsing
  refine ⟨?_, hfl⟩
  have hlen := congrArg List.length hfl
  rw [List.length_map, List.length_map] at hlen
  exact hlen

/-- Instance of C11: the three-joint serial chain `identityChain` at its zero
configuration; the matrix has the three motion-subspace vectors as columns. -/
theorem C11_identity_chain_witness :
    Jacobian.ofIndex (fun _ => ((0, 0) : Int × Int)) 3 identityChain 2 0 = .ok identityEngine ∧
    ∃ M : MatrixXd lineDeps,
      identityEngine.jacobian identityChain identityConfig
        = (.ok M, ⟨identityEngine.jointsPath, identityEngine.point, M⟩) ∧
      M.rows = 6 ∧
      M.columns = (identityEngine.jointsPath.map (subspaceAt identityChain)).flatten ∧
      ((∀ i ∈ identityEngine.jointsPath, dofAt identityChain i = 1) →
        M.columns.length = identityEngine.jointsPath.length ∧
        M.columns.map (fun c => [c]) = identityEngine.jointsPath.map (subspaceAt identityChain)) :=
  ⟨rfl, @C11_identity_chain lineDeps (fun _ => (0, 0)) 3 identityChain 2 0 identityEngine
    identityConfig (1, 0) rfl rfl rfl (fun v => by simp [lineDeps]) rfl
    (by unfold MultiBody.Consistent; decide) rfl rfl (by decide) (by decide) (by decide)
    (by decide)⟩

/-- The value of `jacobian` for `identityEngine` at the zero configuration: the
columns are the motion-subspace vectors of joints 0, 1 and 2. -/
theorem identityEngine_jacobian :
    identityEngine.jacobian identityChain identityConfig
    = (.ok ⟨6, [(1, 0), (0, 1), (1, 1)]⟩, ⟨[0, 1, 2], 0, ⟨6, [(1, 0), (0, 1), (1, 1)]⟩⟩) := rfl

/-! ## Extraction applied twice -/

theorem map_getElem?_range {α : Type} (l : List α) :
    (List.range l.length).map (fun n => l[n]?) = l.map some := by
  apply List.ext_getElem
  · simp
  · intro n h1 h2
    simp only [List.length_map, List.length_range] at h1
    simp [List.getElem?_eq_getElem h1]

theorem map_getElem?_intRange {α : Type} (l : List α) :
    ((List.range l.length).map (fun n : Nat => (n : Int))).map (fun i : Int => l[i.toNat]?)
      = l.map some := by
  rw [List.map_map, ← map_getElem?_range l]
  apply List.map_congr_left
  intro n _
  simp

theorem getElem?_map_range {β : Type} (f : Nat → β) (k n : Nat) (p : β)
    (h : ((List.range k).map f)[n]? = some p) : n < k ∧ p = f n := by
  obtain ⟨hn, hp⟩ := List.getElem?_eq_some_iff.1 h
  simp only [List.length_map, List.length_range] at hn
  refine ⟨hn, ?_⟩
  rw [← hp]
  simp

/-- In a topology whose parent entry at `x` is `x - 1`, the ancestor chain of `i` is
`0, 1, ..., i`. -/
theorem chain_linear {A : Deps} {mb : MultiBody A} {pre : List Int} {i : Int}
    (h : AncestorChain mb pre i)
    (hpar : ∀ (x p : Int), vecAt mb.parent x = .ok p → p = x - 1) :
    pre = (List.range (i + 1).toNat).map (fun n : Nat => (n : Int)) := by
  induction h with
  | root => rfl
  | @step pre0 i p hi0 hp hc ih =>
    have hp1 := hpar i p hp
    have h0 := (vecAt_ok_lt hp).1
    subst hp1
    have e : (i + 1).toNat = (i - 1 + 1).toNat + 1 := by omega
    rw [ih, e, List.range_succ, List.map_append, List.map_singleton]
    congr 2
    omega

theorem pathDof_eq_sum {A : Deps} (mb : MultiBody A) (path : List Int) (h0 : ∀ i ∈ path, 0 ≤ i) :
    pathDof mb path
      = ((path.map (fun i : Int => mb.joints[i.toNat]?)).map
          (fun o : Option A.Joint => (o.map A.dof).getD 0)).sum := by
  unfold pathDof
  rw [List.map_map]
  congr 1
  apply List.map_congr_left
  intro i hi
  have hi0 := h0 i hi
  simp only [Function.comp, dofAt, vecAt, hi0, if_true]
  cases mb.joints[i.toNat]? <;> rfl

theorem sum_map_some_dof {A : Deps} (js : List A.Joint) :
    ((js.map some).map (fun o : Option A.Joint => (o.map A.dof).getD 0)).sum
      = (js.map A.dof).sum := by
  rw [List.map_map]
  rfl

/-- C18: for an engine built by the constructor for a body (so with a path of
length `k ≥ 1`, here at most `2^31`) over a topology that contains its path, the
extracted sub-chain `sub` exists; a new engine constructed on `sub` for its last
body `k - 1` (with any fuel of at least `k`) has the path `0, 1, ..., k - 1`
and a matrix with 6 rows and as many columns as the original engine; and
extracting the sub-chain of the new engine from `sub` returns `sub`. -/
theorem C18_extraction_idempotent {A : Deps} (mem0 : Nat → A.Vector6d) (fuel0 : Nat)
    (mb : MultiBody A) (t : Int) (point0 : A.Vector3d) (eng : Jacobian A)
    (mem : Nat → A.Vector6d) (point : A.Vector3d)
    (hbuilt : Jacobian.ofIndex mem0 fuel0 mb t point0 = .ok eng) (ht : t ≠ -1)
    (hin : ContainsPath mb eng.jointsPath) (hk : eng.jointsPath.length ≤ 2 ^ 31) :
    ∃ (sub : MultiBody A) (eng2 : Jacobian A),
      eng.subMultiBody mb = .ok sub ∧
      (∀ fuel, eng.jointsPath.length ≤ fuel →
        Jacobian.ofIndex mem fuel sub ((eng.jointsPath.length : Int) - 1) point = .ok eng2) ∧
      eng2.jointsPath = (List.range eng.jointsPath.length).map (fun n : Nat => (n : Int)) ∧
      eng2.jac.rows = 6 ∧
      eng2.jac.columns.length = eng.jac.columns.length ∧
      eng2.subMultiBody sub = .ok sub := by
  obtain ⟨hc, hd, _, _, _⟩ := ofIndex_ok hbuilt
  obtain ⟨_, hcols⟩ := ofIndex_dims hbuilt
  have hne := chain_ne_nil hc ht
  have hk1 : 1 ≤ eng.jointsPath.length := by
    cases hp : eng.jointsPath with
    | nil => exact absurd hp hne
    | cons a l => simp
  obtain ⟨bs, js, xfs, xts, hsub, hbs, hjs, hxf, hxt⟩ := subMultiBody_spec eng mb hin
  have lbs : bs.length = eng.jointsPath.length := by simpa using congrArg List.length hbs
  have ljs : js.length = eng.jointsPath.length := by simpa using congrArg List.length hjs
  have lxf : xfs.length = eng.jointsPath.length := by simpa using congrArg List.length hxf
  have lxt : xts.length = eng.jointsPath.length := by simpa using congrArg List.length hxt
  obtain ⟨sub, hsubdef⟩ : ∃ sub : MultiBody A,
      (⟨bs, js, (List.range eng.jointsPath.length).map (fun n => indexMinusOne n),
        (List.range eng.jointsPath.length).map (fun n => staticCastInt n),
        (List.range eng.jointsPath.length).map (fun n => indexMinusOne n), xfs, xts⟩ :
        MultiBody A) = sub := ⟨_, rfl⟩
  rw [hsubdef] at hsub
  have sb : sub.bodies = bs := by rw [← hsubdef]
  have sj : sub.joints = js := by rw [← hsubdef]
  have sf : sub.Xfrom = xfs := by rw [← hsubdef]
  have st : sub.Xto = xts := by rw [← hsubdef]
  have sp : sub.parent = (List.range eng.jointsPath.length).map (fun n => indexMinusOne n) := by
    rw [← hsubdef]
  have hparent : ∀ (n : Nat) (p : Int), sub.parent[n]? = some p →
      n < eng.jointsPath.length ∧ p = (n : Int) - 1 := by
    intro n p h
    rw [sp] at h
    obtain ⟨hn, hp⟩ := getElem?_map_range _ _ _ _ h
    exact ⟨hn, by rw [hp, indexMinusOne_eq n (by omega)]⟩
  have hlen : sub.parent.length = sub.joints.length := by
    rw [sp, sj, ljs]
    simp
  have hplen : sub.parent.length = eng.jointsPath.length := by
    rw [sp]
    simp
  have hlt : ∀ (n : Nat) (p : Int), sub.parent[n]? = some p → -1 ≤ p ∧ p < n := by
    intro n p h
    obtain ⟨_, hp⟩ := hparent n p h
    omega
  have hpar : ∀ (x p : Int), vecAt sub.parent x = .ok p → p = x - 1 := by
    intro x p h
    obtain ⟨_, hp⟩ := hparent x.toNat p (getElem?_toNat_of_vecAt h)
    have := (vecAt_ok_lt h).1
    omega
  have ht2 : (0 : Int) ≤ (eng.jointsPath.length : Int) - 1 ∧
      (eng.jointsPath.length : Int) - 1 < sub.parent.length := by
    rw [hplen]
    omega
  obtain ⟨r, hw, _⟩ := walk_of_parent_lt sub hlen hlt eng.jointsPath.length
    ((eng.jointsPath.length : Int) - 1) (Or.inr ht2) (by omega) [] 0
  obtain ⟨pre, h1, hc2, h3, _⟩ := walk_ok sub _ _ [] 0 r hw
  obtain ⟨path2, dof2⟩ := r
  simp only [List.append_nil] at h1
  subst h1
  simp only [zero_add] at h3
  have hpath2 := chain_linear hc2 hpar
  have hkk : ((eng.jointsPath.length : Int) - 1 + 1).toNat = eng.jointsPath.length := by omega
  rw [hkk] at hpath2
  have hdof2 : dof2 = pathDof mb eng.jointsPath := by
    rw [h3, pathDof_eq_sum mb eng.jointsPath (fun i hi => (hin i hi).1),
      pathDof_eq_sum sub path2 (fun i hi => (chain_nonneg hc2 i hi).1), ← hjs, hpath2, sj]
    have := map_getElem?_intRange js
    rw [ljs] at this
    rw [this]
  refine ⟨sub, ⟨path2, point, ⟨6, (List.range dof2.toNat).map mem⟩⟩, hsub, ?_, hpath2, rfl, ?_, ?_⟩
  · intro fuel hf
    exact ofIndex_of_walk mem fuel sub _ point path2 dof2 (walk_mono sub _ _ [] 0 _ hw fuel hf)
      (by omega)
  · simp only [List.length_map, List.length_range]
    omega
  · have hin2 : ContainsPath sub path2 := by
      intro i hi
      rw [hpath2] at hi
      obtain ⟨n, hn, rfl⟩ := List.mem_map.1 hi
      have := List.mem_range.1 hn
      rw [sb, sj, sf, st, lbs, ljs, lxf, lxt]
      omega
    obtain ⟨bs2, js2, xfs2, xts2, hsub2, hbs2, hjs2, hxf2, hxt2⟩ :=
      subMultiBody_spec ⟨path2, point, ⟨6, (List.range dof2.toNat).map mem⟩⟩ sub hin2
    simp only at hsub2 hbs2 hjs2 hxf2 hxt2
    have l2 : path2.length = eng.jointsPath.length := by
      rw [hpath2]
      simp
    have eb : bs2 = bs := by
      apply List.map_injective_iff.2 (Option.some_injective _)
      rw [hbs2, hpath2, sb]
      have := map_getElem?_intRange bs
      rw [lbs] at this
      exact this
    have ej : js2 = js := by
      apply List.map_injective_iff.2 (Option.some_injective _)
      rw [hjs2, hpath2, sj]
      have := map_getElem?_intRange js
      rw [ljs] at this
      exact this
    have ef : xfs2 = xfs := by
      apply List.map_injective_iff.2 (Option.some_injective _)
      rw [hxf2, hpath2, sf]
      have := map_getElem?_intRange xfs
      rw [lxf] at this
      exact this
    have et : xts2 = xts := by
      apply List.map_injective_iff.2 (Option.some_injective _)
      rw [hxt2, hpath2, st]
      have := map_getElem?_intRange xts
      rw [lxt] at this
      exact this
    rw [hsub2, l2, eb, ej, ef, et, hsubdef]

/-- Instance of C18: the engine built on `exampleTree` for body 4; the sub-chain has
four bodies and the new engine is built for its body 3. -/
theorem C18_extraction_idempotent_witness :
    Jacobian.ofIndex (fun _ => 0) 5 exampleTree 4 0 = .ok exampleEngine ∧
    ∃ (sub : MultiBody intDeps) (eng2 : Jacobian intDeps),
      exampleEngine.subMultiBody exampleTree = .ok sub ∧
      (∀ fuel, exampleEngine.jointsPath.length ≤ fuel →
        Jacobian.ofIndex (fun _ => 1) fuel sub ((exampleEngine.jointsPath.length : Int) - 1) 7
          = .ok eng2) ∧
      eng2.jointsPath = (List.range exampleEngine.jointsPath.length).map (fun n : Nat => (n : Int)) ∧
      eng2.jac.rows = 6 ∧
      eng2.jac.columns.length = exampleEngine.jac.columns.length ∧
      eng2.subMultiBody sub = .ok sub :=
  ⟨rfl, @C18_extraction_idempotent intDeps (fun _ => 0) 5 exampleTree 4 0 exampleEngine
    (fun _ => 1) 7 rfl (by decide) (by unfold ContainsPath; decide) (by decide)⟩

/-- The maximum-index check accepts `fewBodies` for a path with greatest index 4. -/
theorem fewBodies_accepts : ¬ (4 : Int) ≥ staticCastInt fewBodies.nrJoints := by
  have h : staticCastInt fewBodies.nrJoints = 5 := by decide
  rw [h]
  decide

/-- The maximum-index check accepts `badSucc` for a path with greatest index 4. -/
theorem badSucc_accepts : ¬ (4 : Int) ≥ staticCastInt badSucc.nrJoints := by
  have h : staticCastInt badSucc.nrJoints = 5 := by decide
  rw [h]
  decide

/-- C10 fails as stated.  The engine built on `exampleTree` for body 4 has the path
`0, 1, 3, 4` with greatest index 4.  The topology `fewBodies` has five joints,
so the maximum-index check accepts it, but only three bodies: the path entries
3 and 4 are not indices of its body vector, `sSubMultiBody` reads `body(3)`
outside the vector, and `sJacobian`, with a configuration whose sizes match,
reads the world pose of body 4 outside `bodyPosW`.  The topology `badSucc` has
five entries in every vector and is accepted too, but the successor of joint 4
is 9, and `sJacobian` reads `bodyPosW[9]` outside the vector. -/
theorem C10_counterexample :
    Jacobian.ofIndex (fun _ => 0) 5 exampleTree 4 0 = .ok exampleEngine ∧
    maxElement exampleEngine.jointsPath = .ok 4 ∧
    (¬ (4 : Int) ≥ staticCastInt fewBodies.nrJoints) ∧
    (¬ ∀ i ∈ exampleEngine.jointsPath, 0 ≤ i ∧ i < (fewBodies.bodies.length : Int)) ∧
    exampleEngine.sSubMultiBody fewBodies = .error .invalidRead ∧
    checkMatchBodyPos fewBodies fewBodiesConfig = .ok () ∧
    checkMatchJointConf fewBodies fewBodiesConfig = .ok () ∧
    (exampleEngine.sJacobian fewBodies fewBodiesConfig).1 = .error .invalidRead ∧
    (¬ (4 : Int) ≥ staticCastInt badSucc.nrJoints) ∧
    checkMatchBodyPos badSucc exampleConfig = .ok () ∧
    checkMatchJointConf badSucc exampleConfig = .ok () ∧
    (exampleEngine.sJacobian badSucc exampleConfig).1 = .error .invalidRead := by
  refine ⟨rfl, rfl, fewBodies_accepts, ?_, rfl, rfl, rfl, rfl, badSucc_accepts, rfl, rfl, rfl⟩
  intro h
  have h4 := (h 4 (by decide)).2
  revert h4
  decide

end rbd
